import Mathlib

/-!
# UTM zones: a verification development for `zone.go` (package `utm`)

The Go package classifies coordinates into Universal Transverse Mercator
zones.  This file embeds its data type `Zone` and its functions in Lean and
proves properties of them.

Modelling conventions.

* A Go `string` is a sequence of bytes (`GoString`).
* A Go `int` is a 64-bit two's-complement integer: values are `Int`, and
  arithmetic that can overflow is wrapped with `wrapInt`.  A formula of the
  specification over a zone number, such as `number + 32600`, is read as the
  code computes it, in 64-bit arithmetic; the theorems also give the range of
  numbers on which it is the exact integer.
* A Go `float64` is an IEEE-754 binary64 value (`F64`): a NaN, an infinity or
  a finite rational.  Every arithmetic operation computes the exact rational
  result and rounds it to the nearest binary64 value, ties to even (`fl`),
  overflowing to an infinity.  The sign of zero is not represented: no
  operation of this package can observe it.  `F64.fin q` is allowed to hold
  any rational `q`; the values a Go program can actually pass are those
  satisfying `F64.Representable`, so a theorem over all of `F64` covers them.
* A formula of the specification over a latitude or a longitude, such as
  `floor((latitude + 80) / 8)`, is a formula over exact numbers, while the
  code computes its `+` and `/` in float64.  The theorems state the value the
  code computes and relate it to the exact one: equal whenever no operation
  rounds, and otherwise by how much the two differ.
* A run-time panic (index out of range) is the result `none`.
* `strconv.Atoi`, `unicode.ToUpper` and `fmt.Sprintf` belong to the Go
  standard library, not to the package; they are modelled after their
  documentation.
-/

namespace UTM

/-! ## Strings and machine integers -/

/-- A byte. -/
abbrev Byte := Fin 256

/-- A Go string: an immutable sequence of bytes. -/
abbrev GoString := List Byte

/-- The byte of value `n` (reduced modulo 256). -/
def byte (n : Nat) : Byte := ⟨n % 256, Nat.mod_lt n (by decide)⟩

/-- The bytes of an ASCII string literal. -/
def ascii (s : String) : GoString := s.toList.map (fun c => byte c.toNat)

/-- The code points of an ASCII string literal, for a Go `case` list of rune
constants. -/
def runes (s : String) : List Nat := s.toList.map Char.toNat

/-- Go's conversion `string(b)` of a byte `b`: the UTF-8 encoding of the code
point `b`, one byte below 0x80 and the two bytes `0xC0 | b>>6`, `0x80 | b&0x3F`
from 0x80 on. -/
def stringOfByte (b : Byte) : GoString :=
  if b.val < 128 then [b] else [byte (192 + b.val / 64), byte (128 + b.val % 64)]

/-- Go's indexing `s[i]` with an `int` index: a panic (`none`) when the index
is negative or not below `len(s)`. -/
def byteAt (s : GoString) (i : Int) : Option Byte :=
  if i < 0 then none else s[i.toNat]?

/-- Reduce an integer to the range of a 64-bit `int` (two's complement). -/
def wrapInt (x : Int) : Int := (x + 2 ^ 63) % 2 ^ 64 - 2 ^ 63

/-! ## float64 -/

/-- Nearest integer to `x`, a tie going to the even neighbour. -/
def roundHalfEven (x : ℚ) : ℤ :=
  if x - ⌊x⌋ < 1 / 2 then ⌊x⌋
  else if 1 / 2 < x - ⌊x⌋ then ⌊x⌋ + 1
  else if ⌊x⌋ % 2 = 0 then ⌊x⌋ else ⌊x⌋ + 1

/-- The binary exponent of the binade of `q`: `⌊log₂ |q|⌋`, not below the
exponent -1022 of the subnormal range. -/
def binade (q : ℚ) : ℤ := max (Int.log 2 |q|) (-1022)

/-- The unit in the last place at `q`: binary64 carries 53 significant bits. -/
def ulp (q : ℚ) : ℚ := 2 ^ (binade q - 52)

/-- Rounding to the binary64 grid (round to nearest, ties to even), without
the overflow check. -/
def fl (q : ℚ) : ℚ := roundHalfEven (q / ulp q) * ulp q

/-- The largest finite binary64 value. -/
def maxFloat64 : ℚ := (2 ^ 53 - 1) * 2 ^ 971

/-- A float64 value. -/
inductive F64 where
  | nan : F64
  | inf (neg : Bool) : F64
  | fin (q : ℚ) : F64
deriving DecidableEq

namespace F64

/-- The values of the model that are binary64 values. -/
def Representable : F64 → Prop
  | fin q => fl q = q ∧ |q| ≤ maxFloat64
  | _ => True

instance (a : F64) : Decidable (Representable a) := by
  cases a <;> unfold Representable <;> infer_instance

/-- The float64 result of an operation whose exact result is `q`. -/
def round (q : ℚ) : F64 :=
  if maxFloat64 < |fl q| then inf (decide (q < 0)) else fin (fl q)

/-- Go's `a <= b` on float64: false whenever an operand is NaN. -/
def le : F64 → F64 → Bool
  | nan, _ => false
  | _, nan => false
  | inf true, _ => true
  | _, inf false => true
  | fin a, fin b => decide (a ≤ b)
  | _, _ => false

/-- Go's `a < b` on float64: false whenever an operand is NaN. -/
def lt : F64 → F64 → Bool
  | nan, _ => false
  | _, nan => false
  | inf true, inf true => false
  | inf true, _ => true
  | inf false, _ => false
  | fin _, inf neg => !neg
  | fin a, fin b => decide (a < b)

instance : LE F64 := ⟨fun a b => le a b = true⟩
instance : LT F64 := ⟨fun a b => lt a b = true⟩
instance (a b : F64) : Decidable (a ≤ b) := inferInstanceAs (Decidable (le a b = true))
instance (a b : F64) : Decidable (a < b) := inferInstanceAs (Decidable (lt a b = true))

/-- Go's `a + b` on float64. -/
def add : F64 → F64 → F64
  | nan, _ => nan
  | _, nan => nan
  | inf s, inf t => if s = t then inf s else nan
  | inf s, fin _ => inf s
  | fin _, inf t => inf t
  | fin a, fin b => round (a + b)

/-- Go's `a / b` on float64 (a zero divisor is read as +0). -/
def div : F64 → F64 → F64
  | nan, _ => nan
  | _, nan => nan
  | inf _, inf _ => nan
  | inf s, fin b => inf (s != decide (b < 0))
  | fin _, inf _ => fin 0
  | fin a, fin b =>
    if b = 0 then (if a = 0 then nan else inf (decide (a < 0))) else round (a / b)

instance : Add F64 := ⟨add⟩
instance : Div F64 := ⟨div⟩

/-- The result of converting a float64 that is NaN or whose integer part does
not fit an `int`.  Go leaves this value implementation-dependent; this is the
value on amd64.  No theorem below depends on it. -/
def intIndefinite : Int := -2 ^ 63

/-- The integer part of a rational: rounding toward zero. -/
def truncate (q : ℚ) : Int := if 0 ≤ q then ⌊q⌋ else ⌈q⌉

/-- Go's conversion `int(f)`: the fraction is discarded (truncation toward
zero). -/
def toInt : F64 → Int
  | fin q => if -2 ^ 63 ≤ truncate q ∧ truncate q < 2 ^ 63 then truncate q else intIndefinite
  | _ => intIndefinite

end F64

/-! ## The package -/

/-- Zone specifies the zone number and hemisphere:
`N` zone number 1 to 60, `L` zone letter C to X (omitting O, I), `North` zone
hemisphere. -/
structure Zone where
  N : Int
  L : GoString
  North : Bool
deriving DecidableEq

/-- The zero value `Zone{}`. -/
def Zone.zero : Zone := { N := 0, L := [], North := false }

/-- The constant `letters` of `LatLonZone`. -/
def letters : GoString := ascii "CDEFGHJKLMNPQRSTUVWXX"

/-- The tail of `LatLonZone` (from the declaration of `letters` to the final
`return`), reached when neither special case has returned. -/
def LatLonZone.general (latitude longitude : F64) (north : Bool) : Option Zone :=
  let letter : Option GoString :=
    if F64.fin (-80) ≤ latitude ∧ latitude ≤ F64.fin 84 then
      (byteAt letters (F64.toInt (latitude + F64.fin 80) >>> (3 : Nat))).map stringOfByte
    else some []
  letter.map fun l =>
    { N := wrapInt (F64.toInt ((longitude + F64.fin 180) / F64.fin 6) + 1)
      L := l
      North := north }

/-- LatLonZone returns the Zone for the provided coordinates (`none`: the
call panics). -/
def LatLonZone (latitude longitude : F64) : Option Zone :=
  let north : Bool := decide (latitude ≥ F64.fin 0)
  if F64.fin 56 ≤ latitude ∧ latitude ≤ F64.fin 64 ∧
      F64.fin 3 ≤ longitude ∧ longitude ≤ F64.fin 12 then
    some { N := 32, L := [], North := north }
  else if F64.fin 72 ≤ latitude ∧ latitude ≤ F64.fin 84 ∧ longitude ≥ F64.fin 0 then
    if longitude ≤ F64.fin 9 then some { N := 31, L := [], North := north }
    else if longitude ≤ F64.fin 21 then some { N := 33, L := [], North := north }
    else if longitude ≤ F64.fin 33 then some { N := 35, L := [], North := north }
    else if longitude ≤ F64.fin 42 then some { N := 37, L := [], North := north }
    else LatLonZone.general latitude longitude north
  else LatLonZone.general latitude longitude north

/-- Whether a byte is a decimal digit `0`..`9`. -/
def isDigit (c : Byte) : Bool := 48 ≤ c && c ≤ 57

/-- The number denoted by a string of decimal digits, most significant first. -/
def digitsValue (ds : GoString) : Nat := ds.foldl (fun n c => n * 10 + (c.val - 48)) 0

/-- The result of `strconv.Atoi` on the digits `ds` that follow the optional
sign: a syntax error (`none`) when `ds` is empty or holds a byte that is not a
decimal digit, a range error (`none`) when the signed value does not fit a
64-bit `int`. -/
def atoiDigits (neg : Bool) (ds : GoString) : Option Int :=
  if ds = [] ∨ ¬ ds.all isDigit then none
  else
    let n : Int := if neg then -(digitsValue ds : Int) else digitsValue ds
    if -2 ^ 63 ≤ n ∧ n < 2 ^ 63 then some n else none

/-- Model of `strconv.Atoi` of the Go standard library (which is not part of
this repository), after its documentation: `Atoi(s)` is `ParseInt(s, 10, 0)`,
which accepts an optional sign `+` (43) or `-` (45) followed by one or more
decimal digits, and fails on any other text or when the value is out of the
range of `int`.  The result is `none` exactly when `err != nil`. -/
def Atoi (s : GoString) : Option Int :=
  if s.head? = some 43 then atoiDigits false s.tail
  else if s.head? = some 45 then atoiDigits true s.tail
  else atoiDigits false s

/-- Model of `unicode.ToUpper(rune(b))` of the Go standard library for a byte
`b`, that is for the code points U+0000..U+00FF: the ASCII letters `a`..`z` map
to `A`..`Z`; in Latin-1, U+00B5 maps to U+039C, U+00E0..U+00F6 and
U+00F8..U+00FE map 32 down and U+00FF maps to U+0178; every other code point
is unchanged. -/
def toUpper (b : Byte) : Nat :=
  let r := b.val
  if r ≤ 127 then (if 97 ≤ r ∧ r ≤ 122 then r - 32 else r)
  else if r = 181 then r + 743
  else if 224 ≤ r ∧ r ≤ 246 then r - 32
  else if 248 ≤ r ∧ r ≤ 254 then r - 32
  else if r = 255 then r + 121
  else r

/-- ParseZone parses a zone number followed by a zone letter. -/
def ParseZone (s : GoString) : Zone × Bool :=
  if h : s.length < 2 then (Zone.zero, false)
  else
    let last := s.length - 1
    match Atoi (s.take last) with
    | none => (Zone.zero, false)
    | some n =>
      let c : Byte := s.get ⟨s.length - 1, by omega⟩
      if toUpper c ∈ runes "NPQRSTUVWX" then
        ({ N := n, L := stringOfByte c, North := true }, true)
      else if toUpper c ∈ runes "CDEFGHJKLM" then
        ({ N := n, L := stringOfByte c, North := false }, true)
      else (Zone.zero, false)

/-! ## Notions of the specification -/

/-- The letter the general rule of `LatLonZone` assigns at `latitude`: the
entry of `letters` at an eighth of the integer part of the rounded sum
`latitude + 80` when the latitude passes the guard, no letter otherwise. -/
def LetterOf (latitude : F64) (l : GoString) : Prop :=
  if F64.fin (-80) ≤ latitude ∧ latitude ≤ F64.fin 84 then
    ∃ x b, latitude = F64.fin x ∧ letters[(⌊fl (x + 80)⌋ / 8).toNat]? = some b ∧ l = [b]
  else l = []

/-- The 20 band letters, ignoring case. -/
def IsBandLetter (c : Byte) : Prop :=
  c ∈ ascii "CDEFGHJKLMNPQRSTUVWX" ∨ c ∈ ascii "cdefghjklmnpqrstuvwx"

instance (c : Byte) : Decidable (IsBandLetter c) := by unfold IsBandLetter; infer_instance

/-- The strings that parse as a decimal integer, in the words of the
specification: an optional sign `+` or `-`, then one or more decimal digits,
the number they denote (read with `Nat.ofDigits`) being in the range of a
64-bit `int`, from -2^63 to 2^63 - 1. -/
def ParsesAsDecimalInt (p : GoString) : Prop :=
  ∃ sign ds : GoString, p = sign ++ ds ∧
    (sign = [] ∨ sign = ascii "+" ∨ sign = ascii "-") ∧
    ds ≠ [] ∧ (∀ c ∈ ds, 48 ≤ c ∧ c ≤ 57) ∧
    (sign = ascii "-" → Nat.ofDigits 10 (ds.reverse.map (fun c => c.val - 48)) ≤ 2 ^ 63) ∧
    (sign ≠ ascii "-" → Nat.ofDigits 10 (ds.reverse.map (fun c => c.val - 48)) < 2 ^ 63)

/-- The decimal text of a natural number: its digits, most significant
first, and "0" for zero. -/
def natText (m : Nat) : GoString :=
  if m = 0 then [48] else (Nat.digits 10 m).reverse.map (fun d => byte (48 + d))

/-- The decimal text of an integer, as `strconv.Itoa` prints it: a `-` before
the digits of a negative number. -/
def decimalText (n : Int) : GoString :=
  if n < 0 then 45 :: natText n.natAbs else natText n.natAbs

/-! ## The package: text, SRID codes and central meridian -/

/-- Go's conversion `float64(n)` of an `int`: the nearest float64 value. -/
def F64.ofInt (n : Int) : F64 := F64.round (n : ℚ)

/-- Model of `fmt.Sprintf` of the Go standard library for a format made of
the verbs `%d%s` and a literal tail: the decimal text of the `int`, the bytes
of the string, then the tail. -/
def sprintfDS (tail : GoString) (n : Int) (s : GoString) : GoString :=
  decimalText n ++ s ++ tail

/-- String returns a text representation of the zone. -/
def Zone.String (z : Zone) : GoString :=
  let z : Zone := if z.L = [] then { z with L := ascii "?" } else z
  if z.North then sprintfDS (ascii " (north)") z.N z.L
  else sprintfDS (ascii " (south)") z.N z.L

/-- SRID returns the zone EPSG/SRID code. -/
def Zone.SRID (z : Zone) : Int :=
  if z.North then wrapInt (z.N + 32600)
  else wrapInt (z.N + 32700)

/-- LookupSRID returns a Zone by its EPSG/SRID code. -/
def LookupSRID (srid : Int) : Zone × Bool :=
  if 32601 ≤ srid ∧ srid ≤ 32660 then
    ({ N := wrapInt (srid - 32600), L := [], North := true }, true)
  else if 32701 ≤ srid ∧ srid ≤ 32760 then
    ({ N := wrapInt (srid - 32700), L := [], North := false }, true)
  else (Zone.zero, false)

/-- CentralMeridian returns the zone's center longitude: the `int` expression
`(z.N-1)*6 - 180 + 3`, each operation in 64-bit arithmetic, converted to
float64. -/
def Zone.CentralMeridian (z : Zone) : F64 :=
  F64.ofInt (wrapInt (wrapInt (wrapInt (wrapInt (z.N - 1) * 6) - 180) + 3))

/-- The values of a 64-bit `int`. -/
def IsInt64 (n : Int) : Prop := -2 ^ 63 ≤ n ∧ n < 2 ^ 63

instance (n : Int) : Decidable (IsInt64 n) := by unfold IsInt64; infer_instance

/-! ## Rounding lemmas -/

theorem roundHalfEven_intCast (n : ℤ) : roundHalfEven (n : ℚ) = n := by
  simp [roundHalfEven]

theorem floor_le_roundHalfEven (x : ℚ) : ⌊x⌋ ≤ roundHalfEven x := by
  unfold roundHalfEven; split_ifs <;> omega

theorem roundHalfEven_le_floor_add_one (x : ℚ) : roundHalfEven x ≤ ⌊x⌋ + 1 := by
  unfold roundHalfEven; split_ifs <;> omega

theorem roundHalfEven_mono {x y : ℚ} (h : x ≤ y) : roundHalfEven x ≤ roundHalfEven y := by
  rcases lt_or_eq_of_le (Int.floor_mono h) with hlt | heq
  · calc roundHalfEven x ≤ ⌊x⌋ + 1 := roundHalfEven_le_floor_add_one x
      _ ≤ ⌊y⌋ := hlt
      _ ≤ roundHalfEven y := floor_le_roundHalfEven y
  · unfold roundHalfEven
    rw [← heq]
    split_ifs <;> first | omega | (exfalso; linarith)

theorem le_roundHalfEven {x : ℚ} {n : ℤ} (h : (n : ℚ) ≤ x) : n ≤ roundHalfEven x := by
  have := roundHalfEven_mono h
  rwa [roundHalfEven_intCast] at this

theorem roundHalfEven_le {x : ℚ} {n : ℤ} (h : x ≤ (n : ℚ)) : roundHalfEven x ≤ n := by
  have := roundHalfEven_mono h
  rwa [roundHalfEven_intCast] at this

theorem ulp_pos (q : ℚ) : 0 < ulp q := by
  unfold ulp; positivity

theorem binade_ge (q : ℚ) : -1022 ≤ binade q := le_max_right _ _

theorem lt_zpow_binade {q : ℚ} : |q| < 2 ^ (binade q + 1) := by
  have h1 : |q| < ((2 : ℕ) : ℚ) ^ (Int.log 2 |q| + 1) :=
    Int.lt_zpow_succ_log_self (by norm_num) _
  have h2 : ((2 : ℕ) : ℚ) ^ (Int.log 2 |q| + 1) ≤ ((2 : ℕ) : ℚ) ^ (binade q + 1) :=
    zpow_le_zpow_right₀ (by norm_num) (by unfold binade; simp)
  have := lt_of_lt_of_le h1 h2
  simpa using this

theorem zpow_binade_le {q : ℚ} (hq : q ≠ 0) (h : -1022 < binade q) : 2 ^ binade q ≤ |q| := by
  have hb : binade q = Int.log 2 |q| := by
    unfold binade at h ⊢
    rcases max_cases (Int.log 2 |q|) (-1022) with ⟨h1, _⟩ | ⟨h1, _⟩
    · exact h1
    · rw [h1] at h; exact absurd h (lt_irrefl _)
  have := Int.zpow_log_le_self (b := 2) (by norm_num) (abs_pos.mpr hq)
  rw [hb]; simpa using this

theorem binade_mono {a b : ℚ} (ha : a ≠ 0) (h : |a| ≤ |b|) : binade a ≤ binade b :=
  max_le_max (Int.log_mono_right (abs_pos.mpr ha) h) le_rfl

theorem pow53_mul_zpow (k : ℤ) : ((2 ^ 53 : ℤ) : ℚ) * 2 ^ (k - 52) = 2 ^ (k + 1) := by
  rw [Int.cast_pow, Int.cast_ofNat, ← zpow_natCast, ← zpow_add₀ (by norm_num)]
  congr 1; push_cast; ring

theorem pow52_mul_zpow (k : ℤ) : ((2 ^ 52 : ℤ) : ℚ) * 2 ^ (k - 52) = 2 ^ k := by
  rw [Int.cast_pow, Int.cast_ofNat, ← zpow_natCast, ← zpow_add₀ (by norm_num)]
  congr 1; push_cast; ring

theorem fl_zero : fl 0 = 0 := by simp [fl, roundHalfEven]

theorem fl_nonneg {q : ℚ} (h : 0 ≤ q) : 0 ≤ fl q := by
  unfold fl
  have h1 : ((0 : ℤ) : ℚ) ≤ q / ulp q := by
    have := ulp_pos q
    simp only [Int.cast_zero]; positivity
  have h2 := le_roundHalfEven h1
  have := ulp_pos q
  have h3 : (0 : ℚ) ≤ (roundHalfEven (q / ulp q) : ℚ) := by exact_mod_cast h2
  positivity

/-- Rounding is monotone on the non-negative rationals. -/
theorem fl_mono {a b : ℚ} (ha : 0 ≤ a) (h : a ≤ b) : fl a ≤ fl b := by
  rcases eq_or_lt_of_le ha with h0 | h0
  · rw [← h0, fl_zero]; exact fl_nonneg (le_trans ha h)
  have hb0 : 0 < b := lt_of_lt_of_le h0 h
  have hab : |a| ≤ |b| := by rwa [abs_of_pos h0, abs_of_pos hb0]
  rcases eq_or_lt_of_le (binade_mono (ne_of_gt h0) hab) with he | hlt
  · unfold fl ulp
    rw [he]
    have hu : (0 : ℚ) < 2 ^ (binade b - 52) := by positivity
    have h1 : a / 2 ^ (binade b - 52) ≤ b / 2 ^ (binade b - 52) :=
      div_le_div_of_nonneg_right h (le_of_lt hu)
    have h2 : (roundHalfEven (a / 2 ^ (binade b - 52)) : ℚ)
        ≤ roundHalfEven (b / 2 ^ (binade b - 52)) := by
      exact_mod_cast roundHalfEven_mono h1
    exact mul_le_mul_of_nonneg_right h2 (le_of_lt hu)
  · -- different binades: the power of two between them separates the results
    have hA : fl a ≤ 2 ^ (binade a + 1) := by
      unfold fl ulp
      have hu : (0 : ℚ) < 2 ^ (binade a - 52) := by positivity
      have h1 : a / 2 ^ (binade a - 52) ≤ ((2 ^ 53 : ℤ) : ℚ) := by
        rw [div_le_iff₀ hu]
        have := lt_zpow_binade (q := a)
        rw [abs_of_pos h0] at this
        have e : (((2 ^ 53 : ℤ) : ℚ)) * 2 ^ (binade a - 52) = 2 ^ (binade a + 1) := by
          exact pow53_mul_zpow _
        rw [e]; exact le_of_lt this
      have h2 : (roundHalfEven (a / 2 ^ (binade a - 52)) : ℚ) ≤ ((2 ^ 53 : ℤ) : ℚ) := by
        exact_mod_cast roundHalfEven_le h1
      calc (roundHalfEven (a / 2 ^ (binade a - 52)) : ℚ) * 2 ^ (binade a - 52)
          ≤ ((2 ^ 53 : ℤ) : ℚ) * 2 ^ (binade a - 52) :=
            mul_le_mul_of_nonneg_right h2 (le_of_lt hu)
        _ = 2 ^ (binade a + 1) := by
          exact pow53_mul_zpow _
    have hB : (2 : ℚ) ^ binade b ≤ fl b := by
      unfold fl ulp
      have hu : (0 : ℚ) < 2 ^ (binade b - 52) := by positivity
      have hlow : -1022 < binade b := lt_of_le_of_lt (binade_ge a) hlt
      have hb := zpow_binade_le (ne_of_gt hb0) hlow
      rw [abs_of_pos hb0] at hb
      have e : (((2 ^ 52 : ℤ) : ℚ)) * 2 ^ (binade b - 52) = 2 ^ (binade b) := by
        exact pow52_mul_zpow _
      have h1 : ((2 ^ 52 : ℤ) : ℚ) ≤ b / 2 ^ (binade b - 52) := by
        rw [le_div_iff₀ hu, e]; exact hb
      have h2 : ((2 ^ 52 : ℤ) : ℚ) ≤ (roundHalfEven (b / 2 ^ (binade b - 52)) : ℚ) := by
        exact_mod_cast le_roundHalfEven h1
      calc (2 : ℚ) ^ binade b = ((2 ^ 52 : ℤ) : ℚ) * 2 ^ (binade b - 52) := e.symm
        _ ≤ _ := mul_le_mul_of_nonneg_right h2 (le_of_lt hu)
    have hmid : (2 : ℚ) ^ (binade a + 1) ≤ 2 ^ binade b :=
      zpow_le_zpow_right₀ (by norm_num) hlt
    exact le_trans hA (le_trans hmid hB)

theorem binade_eq {q : ℚ} {k : ℤ} (hk : -1022 ≤ k) (h1 : 2 ^ k ≤ |q|)
    (h2 : |q| < 2 ^ (k + 1)) :
    binade q = k := by
  have hq : 0 < |q| := lt_of_lt_of_le (by positivity) h1
  have a1 : k ≤ Int.log 2 |q| :=
    (Int.zpow_le_iff_le_log (b := 2) (by norm_num) hq).mp (by simpa using h1)
  have a2 : Int.log 2 |q| < k + 1 :=
    (Int.lt_zpow_iff_log_lt (b := 2) (by norm_num) hq).mp (by simpa using h2)
  unfold binade
  rw [max_eq_left (by omega)]
  omega

/-- Evaluation of `fl` at a point of a known binade. -/
theorem fl_eval {q : ℚ} {k n : ℤ} (hk : -1022 ≤ k) (h1 : 2 ^ k ≤ |q|)
    (h2 : |q| < 2 ^ (k + 1))
    (hn : roundHalfEven (q / 2 ^ (k - 52)) = n) : fl q = n * 2 ^ (k - 52) := by
  unfold fl ulp
  rw [binade_eq hk h1 h2, hn]

theorem binade_le_of_lt {q : ℚ} {x : ℤ} (hq : q ≠ 0) (hx : -1022 ≤ x)
    (h : |q| < 2 ^ (x + 1)) :
    binade q ≤ x := by
  have a2 : Int.log 2 |q| < x + 1 :=
    (Int.lt_zpow_iff_log_lt (b := 2) (by norm_num) (abs_pos.mpr hq)).mp (by simpa using h)
  unfold binade
  exact max_le (by omega) hx

/-- Every value `m * 2 ^ e` with a 53-bit significand `m` and an exponent `e`
of the binary64 range is a fixed point of the rounding. -/
theorem fl_eq_self (m e : ℤ) (he : -1074 ≤ e) (hm : |m| < 2 ^ 53) :
    fl ((m : ℚ) * 2 ^ e) = (m : ℚ) * 2 ^ e := by
  rcases eq_or_ne m 0 with rfl | hm0
  · simp [fl_zero]
  have hq : ((m : ℚ) * 2 ^ e) ≠ 0 := by
    have : (m : ℚ) ≠ 0 := by exact_mod_cast hm0
    positivity
  have hlt : |(m : ℚ) * 2 ^ e| < 2 ^ (e + 52 + 1) := by
    rw [abs_mul, abs_of_pos (show (0 : ℚ) < 2 ^ e by positivity)]
    have h1 : |(m : ℚ)| < 2 ^ (53 : ℕ) := by
      have : ((|m| : ℤ) : ℚ) < ((2 ^ 53 : ℤ) : ℚ) := by exact_mod_cast hm
      simpa using this
    have h2 : (2 : ℚ) ^ (e + 52 + 1) = 2 ^ (53 : ℕ) * 2 ^ e := by
      rw [← zpow_natCast, ← zpow_add₀ (by norm_num)]
      congr 1; push_cast; ring
    rw [h2]
    exact mul_lt_mul_of_pos_right h1 (by positivity)
  have hB := binade_le_of_lt hq (by omega) hlt
  obtain ⟨d, hd⟩ : ∃ d : ℕ, (d : ℤ) = e + 52 - binade ((m : ℚ) * 2 ^ e) :=
    ⟨(e + 52 - binade ((m : ℚ) * 2 ^ e)).toNat, by omega⟩
  have hdiv : (m : ℚ) * 2 ^ e / ulp ((m : ℚ) * 2 ^ e) = ((m * 2 ^ d : ℤ) : ℚ) := by
    unfold ulp
    rw [mul_div_assoc, ← zpow_sub₀ (by norm_num)]
    push_cast
    rw [← zpow_natCast, hd]
    congr 2; ring
  unfold fl
  rw [hdiv, roundHalfEven_intCast, ← hdiv]
  exact div_mul_cancel₀ _ (ne_of_gt (ulp_pos _))

theorem fl_intCast (n : ℤ) (h : |n| < 2 ^ 53) : fl (n : ℚ) = n := by
  simpa using fl_eq_self n 0 (by norm_num) h

/-- Rounding keeps a value between two non-negative integers below 2^53
between them. -/
theorem fl_between {a : ℚ} {m n : ℤ} (hm : 0 ≤ m) (hn : n < 2 ^ 53) (h1 : (m : ℚ) ≤ a)
    (h2 : a ≤ n) : (m : ℚ) ≤ fl a ∧ fl a ≤ n := by
  have hmn : m ≤ n := by exact_mod_cast le_trans h1 h2
  have hm0 : (0 : ℚ) ≤ m := by exact_mod_cast hm
  have fm := fl_intCast m (by rw [abs_of_nonneg hm]; omega)
  have fn := fl_intCast n (by rw [abs_of_nonneg (le_trans hm hmn)]; exact hn)
  constructor
  · have := fl_mono hm0 h1
    rwa [fm] at this
  · have := fl_mono (le_trans hm0 h1) h2
    rwa [fn] at this

/-- The integer part of a value between two integers. -/
theorem floor_between {a : ℚ} {m n : ℤ} (h1 : (m : ℚ) ≤ a) (h2 : a ≤ n) :
    m ≤ ⌊a⌋ ∧ ⌊a⌋ ≤ n := by
  constructor
  · exact Int.le_floor.mpr h1
  · have := Int.floor_mono h2
    rwa [Int.floor_intCast] at this

/-! ## Lemmas on float64 operations -/

namespace F64

@[simp] theorem fin_le_fin (a b : ℚ) : (fin a ≤ fin b) ↔ a ≤ b := by
  show le (fin a) (fin b) = true ↔ _
  simp [le]

@[simp] theorem fin_lt_fin (a b : ℚ) : (fin a < fin b) ↔ a < b := by
  show lt (fin a) (fin b) = true ↔ _
  simp [lt]

@[simp] theorem not_nan_le (a : F64) : ¬ (nan ≤ a) := by
  show ¬ (le nan a = true)
  simp [le]

@[simp] theorem not_le_nan (a : F64) : ¬ (a ≤ nan) := by
  show ¬ (le a nan = true)
  cases a <;> simp [le]

@[simp] theorem inf_le_fin (s : Bool) (b : ℚ) : (inf s ≤ fin b) ↔ s = true := by
  show le (inf s) (fin b) = true ↔ _
  cases s <;> simp [le]

@[simp] theorem fin_le_inf (a : ℚ) (s : Bool) : (fin a ≤ inf s) ↔ s = false := by
  show le (fin a) (inf s) = true ↔ _
  cases s <;> simp [le]

/-- A float64 between two finite bounds is finite. -/
theorem eq_fin_of_between {a b : ℚ} {x : F64} (h1 : fin a ≤ x) (h2 : x ≤ fin b) :
    ∃ q, x = fin q ∧ a ≤ q ∧ q ≤ b := by
  cases x with
  | nan => exact absurd h2 (not_nan_le _)
  | inf s =>
    rw [fin_le_inf] at h1
    rw [inf_le_fin] at h2
    rw [h1] at h2
    exact absurd h2 (by decide)
  | fin q => exact ⟨q, rfl, by simpa using h1, by simpa using h2⟩

theorem add_fin (a b : ℚ) : fin a + fin b = round (a + b) := rfl

theorem div_fin (a b : ℚ) (hb : b ≠ 0) : fin a / fin b = round (a / b) := by
  show div (fin a) (fin b) = _
  simp [div, hb]

theorem maxFloat64_ge : (2 : ℚ) ^ 63 ≤ maxFloat64 := by
  unfold maxFloat64; norm_num

theorem round_of_le {q : ℚ} (h : |fl q| ≤ 2 ^ 63) : round q = fin (fl q) := by
  unfold round
  rw [if_neg (not_lt.mpr (le_trans h maxFloat64_ge))]

theorem toInt_of_nonneg {q : ℚ} (h0 : 0 ≤ q) (h1 : q < 2 ^ 63) : toInt (fin q) = ⌊q⌋ := by
  have hf0 : (0 : ℤ) ≤ ⌊q⌋ := Int.floor_nonneg.mpr h0
  have hf1 : ⌊q⌋ < 2 ^ 63 := by
    rw [Int.floor_lt]; exact_mod_cast h1
  simp only [toInt, truncate, if_pos h0]
  rw [if_pos ⟨by omega, hf1⟩]

end F64

/-! ## Lemmas on `LatLonZone` -/

theorem fl_164 : fl 164 = 164 := by simpa using fl_intCast 164 (by norm_num)

/-- The sum `latitude + 80` of the letter lookup, for a latitude that passes
the guard: it is finite and its integer part lies in `0..164`. -/
theorem toInt_lat_add_80 {x : ℚ} (h1 : -80 ≤ x) (h2 : x ≤ 84) :
    F64.toInt (F64.fin x + F64.fin 80) = ⌊fl (x + 80)⌋ ∧
      0 ≤ ⌊fl (x + 80)⌋ ∧ ⌊fl (x + 80)⌋ ≤ 164 := by
  have a0 : (0 : ℚ) ≤ x + 80 := by linarith
  have b0 : 0 ≤ fl (x + 80) := fl_nonneg a0
  have b1 : fl (x + 80) ≤ 164 := by
    have := fl_mono a0 (show x + 80 ≤ 164 by linarith)
    rwa [fl_164] at this
  have hr : F64.fin x + F64.fin 80 = F64.fin (fl (x + 80)) := by
    rw [F64.add_fin, F64.round_of_le]
    rw [abs_of_nonneg b0]; exact le_trans b1 (by norm_num)
  refine ⟨?_, Int.floor_nonneg.mpr b0, ?_⟩
  · rw [hr, F64.toInt_of_nonneg b0 (lt_of_le_of_lt b1 (by norm_num))]
  · have : ⌊fl (x + 80)⌋ ≤ ⌊(164 : ℚ)⌋ := Int.floor_mono b1
    simpa using this

theorem letters_entry :
    ∀ i : Fin 21, ∃ b, letters[i.val]? = some b ∧ stringOfByte b = [b] := by
  decide

theorem byteAt_letters {i : Int} (h0 : 0 ≤ i) (h1 : i ≤ 20) :
    ∃ b, letters[i.toNat]? = some b ∧ byteAt letters i = some b ∧ stringOfByte b = [b] := by
  obtain ⟨b, hb, hs⟩ := letters_entry ⟨i.toNat, by omega⟩
  refine ⟨b, hb, ?_, hs⟩
  unfold byteAt
  rw [if_neg (by omega)]
  exact hb

/-- The general rule never panics; its number, letter and hemisphere. -/
theorem general_eq (latitude longitude : F64) (north : Bool) :
    ∃ l, LatLonZone.general latitude longitude north =
        some { N := wrapInt (F64.toInt ((longitude + F64.fin 180) / F64.fin 6) + 1)
               L := l
               North := north } ∧ LetterOf latitude l := by
  unfold LatLonZone.general LetterOf
  by_cases hg : F64.fin (-80) ≤ latitude ∧ latitude ≤ F64.fin 84
  · obtain ⟨x, rfl, hx1, hx2⟩ := F64.eq_fin_of_between hg.1 hg.2
    obtain ⟨e1, e2, e3⟩ := toInt_lat_add_80 hx1 hx2
    have hdiv : ⌊fl (x + 80)⌋ >>> (3 : ℕ) = ⌊fl (x + 80)⌋ / 8 := by
      rw [Int.shiftRight_eq_div_pow]; rfl
    obtain ⟨b, hb1, hb2, hb3⟩ :=
      byteAt_letters (i := ⌊fl (x + 80)⌋ / 8) (by omega) (by omega)
    refine ⟨[b], ?_, ?_⟩
    · simp only [if_pos hg, e1, hdiv, hb2, Option.map_some', hb3]
    · rw [if_pos hg]
      exact ⟨x, b, rfl, hb1, rfl⟩
  · exact ⟨[], by simp only [if_neg hg, Option.map_some'], by rw [if_neg hg]⟩

/-- The shape of every result of `LatLonZone`: the call never panics, the
hemisphere flag is the comparison `latitude >= 0`, and the letter is empty or
the one of the general rule. -/
theorem LatLonZone_shape (latitude longitude : F64) :
    ∃ z, LatLonZone latitude longitude = some z ∧
      z.North = decide (latitude ≥ F64.fin 0) ∧ (z.L = [] ∨ LetterOf latitude z.L) := by
  obtain ⟨l, hl, hL⟩ := general_eq latitude longitude (decide (latitude ≥ F64.fin 0))
  unfold LatLonZone
  simp only []
  split_ifs
  all_goals first
    | exact ⟨_, rfl, rfl, Or.inl rfl⟩
    | exact ⟨_, hl, rfl, Or.inr hL⟩

theorem F64.le_fin_of_le {x : F64} {a b : ℚ} (h : x ≤ F64.fin a) (hab : a ≤ b) :
    x ≤ F64.fin b := by
  cases x with
  | nan => exact absurd h (F64.not_nan_le _)
  | inf s => rw [F64.inf_le_fin] at h ⊢; exact h
  | fin q => rw [F64.fin_le_fin] at h ⊢; exact le_trans h hab

/-- When neither special case returns, `LatLonZone` is its general rule. -/
theorem LatLonZone_eq_general (latitude longitude : F64)
    (hno : ¬ (F64.fin 56 ≤ latitude ∧ latitude ≤ F64.fin 64 ∧
      F64.fin 3 ≤ longitude ∧ longitude ≤ F64.fin 12))
    (hsv : ¬ (F64.fin 72 ≤ latitude ∧ latitude ≤ F64.fin 84 ∧
      F64.fin 0 ≤ longitude ∧ longitude ≤ F64.fin 42)) :
    LatLonZone latitude longitude =
      LatLonZone.general latitude longitude (decide (latitude ≥ F64.fin 0)) := by
  unfold LatLonZone
  simp only [if_neg hno]
  by_cases h : F64.fin 72 ≤ latitude ∧ latitude ≤ F64.fin 84 ∧ longitude ≥ F64.fin 0
  · have h42 : ¬ longitude ≤ F64.fin 42 := fun c => hsv ⟨h.1, h.2.1, h.2.2, c⟩
    have h33 : ¬ longitude ≤ F64.fin 33 := fun c => h42 (F64.le_fin_of_le c (by norm_num))
    have h21 : ¬ longitude ≤ F64.fin 21 := fun c => h42 (F64.le_fin_of_le c (by norm_num))
    have h9 : ¬ longitude ≤ F64.fin 9 := fun c => h42 (F64.le_fin_of_le c (by norm_num))
    rw [if_pos h, if_neg h9, if_neg h21, if_neg h33, if_neg h42]
  · rw [if_neg h]

theorem fl_two_pow (n : ℕ) (h : n ≤ 1023) : fl ((2 : ℚ) ^ n) = 2 ^ n := by
  have := fl_eq_self 1 n (by omega) (by norm_num)
  simpa using this

theorem roundHalfEven_neg (y : ℚ) : roundHalfEven (-y) = -roundHalfEven y := by
  by_cases hy : (⌊y⌋ : ℚ) = y
  · rw [← hy, ← Int.cast_neg, roundHalfEven_intCast, roundHalfEven_intCast]
  · have h1 : ((⌊y⌋ : ℤ) : ℚ) < y := lt_of_le_of_ne (Int.floor_le y) hy
    have h2 : y < ((⌊y⌋ : ℤ) : ℚ) + 1 := Int.lt_floor_add_one y
    have hf : ⌊-y⌋ = -⌊y⌋ - 1 := by
      rw [Int.floor_eq_iff]
      push_cast
      constructor <;> linarith
    unfold roundHalfEven
    rw [hf]
    push_cast
    split_ifs <;> first | omega | (exfalso; linarith)

theorem fl_neg (q : ℚ) : fl (-q) = -fl q := by
  have hu : ulp (-q) = ulp q := by
    unfold ulp binade; rw [abs_neg]
  unfold fl
  rw [hu, neg_div, roundHalfEven_neg]
  push_cast; ring

/-- Rounding keeps a value within a power of two that bounds it. -/
theorem abs_fl_le {q : ℚ} {n : ℕ} (hn : n ≤ 1023) (h : |q| ≤ 2 ^ n) : |fl q| ≤ 2 ^ n := by
  rcases le_total 0 q with h0 | h0
  · rw [abs_of_nonneg h0] at h
    rw [abs_of_nonneg (fl_nonneg h0)]
    have := fl_mono h0 h
    rwa [fl_two_pow n hn] at this
  · have h0' : 0 ≤ -q := by linarith
    rw [abs_of_nonpos h0] at h
    have e : fl q = -fl (-q) := by rw [fl_neg]; ring
    rw [e, abs_neg, abs_of_nonneg (fl_nonneg h0')]
    have := fl_mono h0' h
    rwa [fl_two_pow n hn] at this

/-- The float64 quotient `(longitude + 180) / 6` for a longitude in
`[-180, 2^62]`: it is finite, non-negative and below `2^62`. -/
theorem quotient_eq {x : ℚ} (h1 : -180 ≤ x) (h2 : x ≤ 2 ^ 62) :
    (F64.fin x + F64.fin 180) / F64.fin 6 = F64.fin (fl (fl (x + 180) / 6)) ∧
      0 ≤ fl (fl (x + 180) / 6) ∧ fl (fl (x + 180) / 6) ≤ 2 ^ 61 := by
  have a0 : (0 : ℚ) ≤ x + 180 := by linarith
  have b0 : 0 ≤ fl (x + 180) := fl_nonneg a0
  have b1 : fl (x + 180) ≤ 2 ^ 63 := by
    have := fl_mono a0 (show x + 180 ≤ 2 ^ 63 by linarith)
    rwa [fl_two_pow 63 (by norm_num)] at this
  have c0 : (0 : ℚ) ≤ fl (x + 180) / 6 := by positivity
  have d0 : 0 ≤ fl (fl (x + 180) / 6) := fl_nonneg c0
  have d1 : fl (fl (x + 180) / 6) ≤ 2 ^ 61 := by
    have := fl_mono c0 (show fl (x + 180) / 6 ≤ 2 ^ 61 by linarith)
    rwa [fl_two_pow 61 (by norm_num)] at this
  refine ⟨?_, d0, d1⟩
  rw [F64.add_fin, F64.round_of_le (by rw [abs_of_nonneg b0]; exact b1),
    F64.div_fin _ _ (by norm_num), F64.round_of_le]
  rw [abs_of_nonneg d0]; exact le_trans d1 (by norm_num)

theorem wrapInt_of_fits {n : Int} (h0 : -2 ^ 63 ≤ n) (h1 : n < 2 ^ 63) : wrapInt n = n := by
  unfold wrapInt; omega

theorem wrapInt_lt (n : Int) : wrapInt n < 2 ^ 63 := by
  unfold wrapInt; omega

/-- The zone number of the general rule for a longitude in `[-180, 2^62]`. -/
theorem zoneNumber_eq {x : ℚ} (h1 : -180 ≤ x) (h2 : x ≤ 2 ^ 62) :
    wrapInt (F64.toInt ((F64.fin x + F64.fin 180) / F64.fin 6) + 1)
      = ⌊fl (fl (x + 180) / 6)⌋ + 1 := by
  obtain ⟨e, d0, d1⟩ := quotient_eq h1 h2
  have hlt : fl (fl (x + 180) / 6) < 2 ^ 63 := lt_of_le_of_lt d1 (by norm_num)
  rw [e, F64.toInt_of_nonneg d0 hlt]
  have hf0 : (0 : ℤ) ≤ ⌊fl (fl (x + 180) / 6)⌋ := Int.floor_nonneg.mpr d0
  have hf1 : ⌊fl (fl (x + 180) / 6)⌋ ≤ 2 ^ 61 := by
    have : ⌊fl (fl (x + 180) / 6)⌋ ≤ ⌊((2 ^ 61 : ℤ) : ℚ)⌋ :=
      Int.floor_mono (by exact_mod_cast d1)
    rwa [Int.floor_intCast] at this
  exact wrapInt_of_fits (by omega) (by omega)

/-- A value whose rounding is below a power of two in magnitude is below it
itself. -/
theorem abs_lt_of_abs_fl_lt {t : ℚ} {n : ℕ} (hn : n ≤ 1023) (h : |fl t| < 2 ^ n) :
    |t| < 2 ^ n := by
  by_contra c
  have c' : (2 : ℚ) ^ n ≤ |t| := not_lt.mp c
  have hp : (0 : ℚ) ≤ 2 ^ n := by positivity
  rcases le_total 0 t with h0 | h0
  · rw [abs_of_nonneg h0] at c'
    have := fl_mono hp c'
    rw [fl_two_pow n hn] at this
    rw [abs_of_nonneg (fl_nonneg h0)] at h
    linarith
  · rw [abs_of_nonpos h0] at c'
    have := fl_mono hp c'
    rw [fl_two_pow n hn, fl_neg] at this
    have := neg_le_abs (fl t)
    linarith

/-- The float64 values below 2^63 end at 2^63 - 1024: in the binade of 2^62
the grid has step 1024. -/
theorem fl_le_of_lt_two_pow_63 {t : ℚ} (h : fl t < 2 ^ 63) : fl t ≤ 2 ^ 63 - 1024 := by
  rcases lt_or_le t (2 ^ 62) with h62 | h62
  · rcases le_total 0 t with h0 | h0
    · have := fl_mono h0 (le_of_lt h62)
      rw [fl_two_pow 62 (by norm_num)] at this
      have e : (2 : ℚ) ^ 62 ≤ 2 ^ 63 - 1024 := by norm_num
      linarith
    · have e : fl t = -fl (-t) := by rw [fl_neg]; ring
      have := fl_nonneg (show (0 : ℚ) ≤ -t by linarith)
      have e2 : (0 : ℚ) ≤ 2 ^ 63 - 1024 := by norm_num
      linarith
  · have h0 : (0 : ℚ) ≤ t := le_trans (by positivity) h62
    have hlt : t < 2 ^ 63 := by
      by_contra c
      have := fl_mono (show (0 : ℚ) ≤ 2 ^ 63 by positivity) (not_lt.mp c)
      rw [fl_two_pow 63 (by norm_num)] at this
      linarith
    have hb : binade t = 62 :=
      binade_eq (by norm_num) (by rw [abs_of_nonneg h0]; exact_mod_cast h62)
        (by rw [abs_of_nonneg h0]; exact_mod_cast hlt)
    have hu : ulp t = 1024 := by
      unfold ulp; rw [hb]; norm_num
    unfold fl at h ⊢
    rw [hu] at h ⊢
    have hR : roundHalfEven (t / 1024) < 2 ^ 53 := by
      have : ((roundHalfEven (t / 1024) : ℤ) : ℚ) < ((2 ^ 53 : ℤ) : ℚ) := by
        push_cast; linarith
      exact_mod_cast this
    have hR' : ((roundHalfEven (t / 1024) : ℤ) : ℚ) ≤ ((2 ^ 53 - 1 : ℤ) : ℚ) := by
      exact_mod_cast (show roundHalfEven (t / 1024) ≤ 2 ^ 53 - 1 by omega)
    push_cast at hR'
    linarith

/-- The float64 quotient `(longitude + 180) / 6` whenever its value is within
2^63 of zero: neither operation overflows. -/
theorem quotient_of_fits {x : ℚ} (h : |fl (fl (x + 180) / 6)| ≤ 2 ^ 63) :
    (F64.fin x + F64.fin 180) / F64.fin 6 = F64.fin (fl (fl (x + 180) / 6)) := by
  have a1 : |fl (x + 180) / 6| < 2 ^ 64 :=
    abs_lt_of_abs_fl_lt (by norm_num) (lt_of_le_of_lt h (by norm_num))
  have a2 : |fl (x + 180)| ≤ maxFloat64 := by
    rw [abs_div, abs_of_pos (show (0 : ℚ) < 6 by norm_num), div_lt_iff₀ (by norm_num)] at a1
    have e : (2 : ℚ) ^ 64 * 6 ≤ maxFloat64 := by unfold maxFloat64; norm_num
    linarith
  have e1 : F64.fin x + F64.fin 180 = F64.fin (fl (x + 180)) := by
    rw [F64.add_fin]
    unfold F64.round
    rw [if_neg (not_lt.mpr a2)]
  rw [e1, F64.div_fin _ _ (by norm_num), F64.round_of_le h]

/-- The conversion `int(q)` of a float64 in the range of a 64-bit `int`. -/
theorem toInt_of_fits {q : ℚ} (h1 : -2 ^ 63 ≤ q) (h2 : q < 2 ^ 63) :
    F64.toInt (F64.fin q) = F64.truncate q ∧
      -2 ^ 63 ≤ F64.truncate q ∧ F64.truncate q ≤ ⌊q⌋ + 1 ∧ ⌊q⌋ < 2 ^ 63 := by
  have hf1 : ⌊q⌋ < 2 ^ 63 := by
    rw [Int.floor_lt]; exact_mod_cast h2
  have hf0 : -2 ^ 63 ≤ ⌊q⌋ := by
    rw [Int.le_floor]; exact_mod_cast h1
  have hc : ⌈q⌉ ≤ ⌊q⌋ + 1 := Int.ceil_le_floor_add_one q
  have hfc : ⌊q⌋ ≤ ⌈q⌉ := Int.floor_le_ceil q
  have ht : -2 ^ 63 ≤ F64.truncate q ∧ F64.truncate q ≤ ⌊q⌋ + 1 ∧
      F64.truncate q < 2 ^ 63 := by
    unfold F64.truncate
    split_ifs with h0
    · exact ⟨hf0, by omega, hf1⟩
    · have : ⌈q⌉ ≤ 0 := by
        rw [Int.ceil_le]; push_cast; linarith
      exact ⟨by omega, hc, by omega⟩
  refine ⟨?_, ht.1, ht.2.1, hf1⟩
  simp only [F64.toInt]
  rw [if_pos ⟨ht.1, ht.2.2⟩]

/-- The zone number of the general rule whenever the float64 quotient is in
the range of a 64-bit `int`: the quotient truncated toward zero, plus one. -/
theorem zoneNumber_of_fits {x : ℚ} (h1 : -2 ^ 63 ≤ fl (fl (x + 180) / 6))
    (h2 : fl (fl (x + 180) / 6) < 2 ^ 63) :
    wrapInt (F64.toInt ((F64.fin x + F64.fin 180) / F64.fin 6) + 1)
      = F64.truncate (fl (fl (x + 180) / 6)) + 1 := by
  have hq := quotient_of_fits (x := x) (abs_le.mpr ⟨by linarith, le_of_lt h2⟩)
  obtain ⟨e, t0, t1, -⟩ := toInt_of_fits h1 h2
  have h3 := fl_le_of_lt_two_pow_63 h2
  have hf : ⌊fl (fl (x + 180) / 6)⌋ ≤ 2 ^ 63 - 1024 := by
    have : ⌊fl (fl (x + 180) / 6)⌋ ≤ ⌊((2 ^ 63 - 1024 : ℤ) : ℚ)⌋ :=
      Int.floor_mono (by norm_num at h3 ⊢; exact h3)
    rwa [Int.floor_intCast] at this
  rw [hq, e]
  exact wrapInt_of_fits (by omega) (by omega)

/-- Every longitude of magnitude up to 2^63 has its float64 quotient in the
range of a 64-bit `int`. -/
theorem quotient_fits {x : ℚ} (h : |x| ≤ 2 ^ 63) :
    -2 ^ 63 ≤ fl (fl (x + 180) / 6) ∧ fl (fl (x + 180) / 6) < 2 ^ 63 := by
  have a1 : |x + 180| ≤ 2 ^ 64 := by
    have := abs_add x 180
    rw [abs_of_pos (show (0 : ℚ) < 180 by norm_num)] at this
    have e : (2 : ℚ) ^ 63 + 180 ≤ 2 ^ 64 := by norm_num
    linarith
  have a2 := abs_fl_le (by norm_num) a1
  have a3 : |fl (x + 180) / 6| ≤ 2 ^ 62 := by
    rw [abs_div, abs_of_pos (show (0 : ℚ) < 6 by norm_num), div_le_iff₀ (by norm_num)]
    have e : (2 : ℚ) ^ 64 ≤ 2 ^ 62 * 6 := by norm_num
    linarith
  have a4 := abs_le.mp (abs_fl_le (by norm_num) a3)
  constructor
  · have e : (-2 : ℚ) ^ 63 ≤ -2 ^ 62 := by norm_num
    have e' : -(2 : ℚ) ^ 63 ≤ -2 ^ 62 := by norm_num
    linarith [a4.1]
  · have e : (2 : ℚ) ^ 62 < 2 ^ 63 := by norm_num
    linarith [a4.2]

/-- Truncation toward zero is the floor exactly at the non-negative values and
at the whole numbers. -/
theorem truncate_eq_floor_iff (q : ℚ) :
    F64.truncate q = ⌊q⌋ ↔ (0 ≤ q ∨ ((⌊q⌋ : ℤ) : ℚ) = q) := by
  unfold F64.truncate
  by_cases h0 : 0 ≤ q
  · simp [h0]
  · rw [if_neg h0]
    constructor
    · intro h
      refine Or.inr (le_antisymm (Int.floor_le q) ?_)
      have := Int.le_ceil q
      rw [h] at this
      exact this
    · rintro (h | h)
      · exact absurd h h0
      · rw [← h, Int.ceil_intCast, Int.floor_intCast]

/-- Evaluation of `LatLonZone` on its general rule, from the rounded sum
`latitude + 80` and the zone number. -/
theorem LatLonZone_eval (x : ℚ) (longitude : F64) (s : ℚ) (i : ℕ) (b : Byte) (n : ℤ)
    (hno : ¬ (F64.fin 56 ≤ F64.fin x ∧ F64.fin x ≤ F64.fin 64 ∧
      F64.fin 3 ≤ longitude ∧ longitude ≤ F64.fin 12))
    (hsv : ¬ (F64.fin 72 ≤ F64.fin x ∧ F64.fin x ≤ F64.fin 84 ∧
      F64.fin 0 ≤ longitude ∧ longitude ≤ F64.fin 42))
    (hx1 : -80 ≤ x) (hx2 : x ≤ 84) (hs : fl (x + 80) = s) (hi : ⌊s⌋ / 8 = (i : ℤ))
    (hb : letters[i]? = some b)
    (hn : wrapInt (F64.toInt ((longitude + F64.fin 180) / F64.fin 6) + 1) = n) :
    LatLonZone (F64.fin x) longitude = some { N := n, L := [b], North := decide (0 ≤ x) } := by
  rw [LatLonZone_eq_general _ _ hno hsv]
  obtain ⟨l, hl, hL⟩ := general_eq (F64.fin x) longitude (decide (F64.fin x ≥ F64.fin 0))
  unfold LetterOf at hL
  rw [if_pos ⟨(F64.fin_le_fin _ _).mpr hx1, (F64.fin_le_fin _ _).mpr hx2⟩] at hL
  obtain ⟨x', b', hx, hb', rfl⟩ := hL
  cases hx
  rw [hs, hi, Int.toNat_ofNat, hb] at hb'
  cases hb'
  rw [hl, hn]
  have : decide (F64.fin x ≥ F64.fin 0) = decide (0 ≤ x) := by
    simp only [ge_iff_le, F64.fin_le_fin]
  rw [this]

theorem floor_div_eight (q : ℚ) : ⌊q / 8⌋ = ⌊q⌋ / 8 := by
  rw [Int.floor_eq_iff]
  have h1 : ((⌊q⌋ : ℤ) : ℚ) ≤ q := Int.floor_le q
  have h2 : q < ((⌊q⌋ + 1 : ℤ) : ℚ) := by exact_mod_cast Int.lt_floor_add_one q
  have h3 : ((⌊q⌋ / 8 * 8 : ℤ) : ℚ) ≤ ((⌊q⌋ : ℤ) : ℚ) := by
    exact_mod_cast (show ⌊q⌋ / 8 * 8 ≤ ⌊q⌋ by omega)
  have h4 : ((⌊q⌋ + 1 : ℤ) : ℚ) ≤ ((⌊q⌋ / 8 * 8 + 8 : ℤ) : ℚ) := by
    exact_mod_cast (show ⌊q⌋ + 1 ≤ ⌊q⌋ / 8 * 8 + 8 by omega)
  push_cast at h2 h3 h4
  constructor
  · rw [le_div_iff₀ (by norm_num)]; linarith
  · rw [div_lt_iff₀ (by norm_num)]; linarith

/-- The Svalbard special case: the four sub-bands of longitude. -/
theorem svalbard_eq (latitude longitude : F64)
    (h1 : F64.fin 72 ≤ latitude) (h2 : latitude ≤ F64.fin 84)
    (h3 : F64.fin 0 ≤ longitude) (h4 : longitude ≤ F64.fin 42) :
    ∃ z, LatLonZone latitude longitude = some z ∧ z.North = true ∧ z.L = [] ∧
      (longitude ≤ F64.fin 9 → z.N = 31) ∧
      (F64.fin 9 < longitude → longitude ≤ F64.fin 21 → z.N = 33) ∧
      (F64.fin 21 < longitude → longitude ≤ F64.fin 33 → z.N = 35) ∧
      (F64.fin 33 < longitude → z.N = 37) := by
  obtain ⟨x, rfl, hx1, hx2⟩ := F64.eq_fin_of_between h1 h2
  obtain ⟨y, rfl, hy1, hy2⟩ := F64.eq_fin_of_between h3 h4
  have hn : F64.fin x ≥ F64.fin 0 := (F64.fin_le_fin 0 x).mpr (by linarith)
  have hno : ¬ (F64.fin 56 ≤ F64.fin x ∧ F64.fin x ≤ F64.fin 64 ∧
      F64.fin 3 ≤ F64.fin y ∧ F64.fin y ≤ F64.fin 12) := by
    simp only [F64.fin_le_fin]; intro h; linarith [h.2.1]
  have hsv : F64.fin 72 ≤ F64.fin x ∧ F64.fin x ≤ F64.fin 84 ∧ F64.fin y ≥ F64.fin 0 :=
    ⟨h1, h2, h3⟩
  unfold LatLonZone
  simp only [if_neg hno, if_pos hsv, decide_eq_true hn]
  simp only [F64.fin_le_fin, F64.fin_lt_fin]
  by_cases c1 : y ≤ 9
  · exact ⟨_, by rw [if_pos c1], rfl, rfl, fun _ => rfl, fun h => by linarith,
      fun h => by linarith, fun h => by linarith⟩
  by_cases c2 : y ≤ 21
  · exact ⟨_, by rw [if_neg c1, if_pos c2], rfl, rfl, fun h => absurd h c1, fun _ _ => rfl,
      fun h => by linarith, fun h => by linarith⟩
  by_cases c3 : y ≤ 33
  · exact ⟨_, by rw [if_neg c1, if_neg c2, if_pos c3], rfl, rfl, fun h => absurd h c1,
      fun _ h => absurd h c2, fun _ _ => rfl, fun h => by linarith⟩
  · exact ⟨_, by rw [if_neg c1, if_neg c2, if_neg c3, if_pos hy2], rfl, rfl,
      fun h => absurd h c1, fun _ h => absurd h c2, fun _ h => absurd h c3, fun _ => rfl⟩

/-! ### Evaluations at concrete inputs -/

theorem fl_neg_half : fl (-(1 / 2)) = -(1 / 2) := by
  have := fl_eq_self (-1) (-1) (by norm_num) (by norm_num)
  have e : (((-1 : ℤ) : ℚ) * 2 ^ (-1 : ℤ)) = -(1 / 2) := by norm_num
  rwa [e] at this

/-- The float64 quotient `(longitude + 180) / 6` at longitude -183 is -0.5:
neither operation rounds. -/
theorem quotient_neg183 :
    (F64.fin (-183) + F64.fin 180) / F64.fin 6 = F64.fin (-(1 / 2)) := by
  have e1 : F64.fin (-183) + F64.fin 180 = F64.fin (-3) := by
    have f : fl (-3) = -3 := by simpa using fl_intCast (-3) (by norm_num)
    rw [F64.add_fin]
    norm_num
    rw [F64.round_of_le] <;> rw [f]
    norm_num
  have e2 : F64.fin (-3) / F64.fin 6 = F64.fin (-(1 / 2)) := by
    rw [F64.div_fin _ _ (by norm_num)]
    norm_num
    rw [F64.round_of_le] <;> rw [fl_neg_half]
    norm_num [abs_of_neg]
  rw [e1, e2]

/-- The zone number computed at longitude -183: the quotient is -0.5, which the
conversion truncates to 0. -/
theorem zoneNumber_neg183 :
    wrapInt (F64.toInt ((F64.fin (-183) + F64.fin 180) / F64.fin 6) + 1) = 1 := by
  have e3 : F64.toInt (F64.fin (-(1 / 2))) = 0 := by
    have : ⌈(-(1 / 2) : ℚ)⌉ = 0 := by
      rw [Int.ceil_eq_iff]; norm_num
    norm_num [F64.toInt, F64.truncate, this]
  rw [quotient_neg183, e3]; decide

/-- The sum `(180 - 2^-45) + 180` lies halfway between the float64 values
`360 - 2^-44` and `360`, and rounds to the even one, 360. -/
theorem fl_360_tie : fl ((180 - 1 / 2 ^ 45) + 180) = 360 := by
  have e : ((180 - 1 / 2 ^ 45 : ℚ) + 180) = 360 - 1 / 2 ^ 45 := by ring
  rw [e, fl_eval (k := 8) (n := 360 * 2 ^ 44) (by norm_num) (by norm_num [abs_of_pos])
    (by norm_num [abs_of_pos])]
  · norm_num
  · norm_num [roundHalfEven]

theorem zoneNumber_near180 :
    wrapInt (F64.toInt ((F64.fin (180 - 1 / 2 ^ 45) + F64.fin 180) / F64.fin 6) + 1) = 61 := by
  rw [zoneNumber_eq (by norm_num) (by norm_num), fl_360_tie]
  have f : fl (360 / 6) = 60 := by
    have := fl_intCast 60 (by norm_num)
    norm_num at this ⊢
    exact this
  rw [f]
  norm_num

theorem zoneNumber_180 :
    wrapInt (F64.toInt ((F64.fin 180 + F64.fin 180) / F64.fin 6) + 1) = 61 := by
  rw [zoneNumber_eq (by norm_num) (by norm_num)]
  have f1 : fl (180 + 180) = 360 := by
    have := fl_intCast 360 (by norm_num)
    norm_num at this ⊢
    exact this
  have f : fl (360 / 6) = 60 := by
    have := fl_intCast 60 (by norm_num)
    norm_num at this ⊢
    exact this
  rw [f1, f]
  norm_num

theorem zoneNumber_0 :
    wrapInt (F64.toInt ((F64.fin 0 + F64.fin 180) / F64.fin 6) + 1) = 31 := by
  rw [zoneNumber_eq (by norm_num) (by norm_num)]
  have f1 : fl (0 + 180) = 180 := by
    have := fl_intCast 180 (by norm_num)
    norm_num at this ⊢
    exact this
  have f : fl (180 / 6) = 30 := by
    have := fl_intCast 30 (by norm_num)
    norm_num at this ⊢
    exact this
  rw [f1, f]
  norm_num

theorem zoneNumber_neg6 :
    wrapInt (F64.toInt ((F64.fin (-6) + F64.fin 180) / F64.fin 6) + 1) = 30 := by
  rw [zoneNumber_eq (by norm_num) (by norm_num)]
  have f1 : fl (-6 + 180) = 174 := by
    have := fl_intCast 174 (by norm_num)
    norm_num at this ⊢
    exact this
  have f : fl (174 / 6) = 29 := by
    have := fl_intCast 29 (by norm_num)
    norm_num at this ⊢
    exact this
  rw [f1, f]
  norm_num

theorem quotient_neg186 : fl (fl (-186 + 180) / 6) = -1 := by
  have f1 : fl (-186 + 180) = -6 := by
    have := fl_intCast (-6) (by norm_num)
    norm_num at this ⊢
    exact this
  have f2 : fl (-6 / 6) = -1 := by
    have := fl_intCast (-1) (by norm_num)
    norm_num at this ⊢
    exact this
  rw [f1, f2]

theorem fl_80 : fl (0 + 80) = 80 := by
  have := fl_intCast 80 (by norm_num)
  norm_num at this ⊢
  exact this

/-- The sum `(8 - 2^-50) + 80` is nearer to 88 than to the float64 value below
88, and rounds to 88. -/
theorem fl_88_up : fl ((8 - 1 / 2 ^ 50) + 80) = 88 := by
  have e : ((8 - 1 / 2 ^ 50 : ℚ) + 80) = 88 - 1 / 2 ^ 50 := by ring
  rw [e, fl_eval (k := 6) (n := 88 * 2 ^ 46) (by norm_num) (by norm_num [abs_of_pos])
    (by norm_num [abs_of_pos])]
  · norm_num
  · norm_num [roundHalfEven]

/-- The sum `-2^-60 + 80` rounds to 80. -/
theorem fl_80_up : fl (-(1 / 2 ^ 60) + 80) = 80 := by
  have e : ((-(1 / 2 ^ 60) : ℚ) + 80) = 80 - 1 / 2 ^ 60 := by ring
  rw [e, fl_eval (k := 6) (n := 80 * 2 ^ 46) (by norm_num) (by norm_num [abs_of_pos])
    (by norm_num [abs_of_pos])]
  · norm_num
  · norm_num [roundHalfEven]

theorem representable_of_dyadic (m e : ℤ) (he : -1074 ≤ e) (he2 : e ≤ 0) (hm : |m| < 2 ^ 53) :
    F64.Representable (F64.fin ((m : ℚ) * 2 ^ e)) := by
  refine ⟨fl_eq_self m e he hm, ?_⟩
  rw [abs_mul, abs_of_pos (show (0 : ℚ) < 2 ^ e by positivity)]
  have h1 : |(m : ℚ)| ≤ 2 ^ (53 : ℕ) := by
    have : ((|m| : ℤ) : ℚ) < ((2 ^ 53 : ℤ) : ℚ) := by exact_mod_cast hm
    exact le_of_lt (by simpa using this)
  have h2 : (2 : ℚ) ^ e ≤ 1 := zpow_le_one_of_nonpos₀ (by norm_num) he2
  calc |(m : ℚ)| * 2 ^ e ≤ 2 ^ (53 : ℕ) * 1 :=
        mul_le_mul h1 h2 (by positivity) (by positivity)
    _ ≤ maxFloat64 := by unfold maxFloat64; norm_num

/-- Rounding at the antimeridian: at the float64 longitude 180 - 2^-45 the sum
`longitude + 180` rounds up to 360 and the zone number is 61, where the exact
quotient gives 60. -/
theorem LatLonZone_near180 :
    F64.Representable (F64.fin (180 - 1 / 2 ^ 45)) ∧
    LatLonZone (F64.fin 0) (F64.fin (180 - 1 / 2 ^ 45))
      = some { N := 61, L := ascii "N", North := true } ∧
    ⌊((180 - 1 / 2 ^ 45 : ℚ) + 180) / 6⌋ + 1 = 60 := by
  refine ⟨?_, ?_, ?_⟩
  · have := representable_of_dyadic (180 * 2 ^ 45 - 1) (-45) (by norm_num) (by norm_num)
      (by norm_num)
    have e : (((180 * 2 ^ 45 - 1 : ℤ) : ℚ) * 2 ^ (-45 : ℤ)) = 180 - 1 / 2 ^ 45 := by
      norm_num
    rwa [e] at this
  · have := LatLonZone_eval 0 (F64.fin (180 - 1 / 2 ^ 45)) 80 10 78 61 (by simp) (by simp)
      (by norm_num) (by norm_num) fl_80 (by norm_num) (by decide) zoneNumber_near180
    simpa using this
  · have : ⌊((180 - 1 / 2 ^ 45 : ℚ) + 180) / 6⌋ = 59 := by
      rw [Int.floor_eq_iff]; norm_num
    rw [this]; norm_num

/-! ## Lemmas on `ParseZone` -/

theorem digitsValue_eq (ds : GoString) :
    digitsValue ds = Nat.ofDigits 10 (ds.reverse.map (fun c => c.val - 48)) := by
  unfold digitsValue
  rw [← List.foldr_reverse]
  induction ds.reverse with
  | nil => simp
  | cons a t ih =>
    rw [List.foldr_cons, ih, List.map_cons, Nat.ofDigits_cons]
    ring

set_option maxRecDepth 100000 in
theorem toUpper_mem_iff (c : Byte) :
    (toUpper c ∈ runes "NPQRSTUVWX" ∨ toUpper c ∈ runes "CDEFGHJKLM") ↔ IsBandLetter c := by
  revert c; decide

set_option maxRecDepth 100000 in
theorem toUpper_north_iff (c : Byte) :
    toUpper c ∈ runes "NPQRSTUVWX" ↔
      (c ∈ ascii "NPQRSTUVWX" ∨ c ∈ ascii "npqrstuvwx") := by
  revert c; decide

/-- The function `ParseZone` on a string split into its last byte and what precedes it. -/
theorem ParseZone_append (p : GoString) (c : Byte) (hp : p ≠ []) :
    ParseZone (p ++ [c]) =
      match Atoi p with
      | none => (Zone.zero, false)
      | some n =>
        if toUpper c ∈ runes "NPQRSTUVWX" then
          ({ N := n, L := stringOfByte c, North := true }, true)
        else if toUpper c ∈ runes "CDEFGHJKLM" then
          ({ N := n, L := stringOfByte c, North := false }, true)
        else (Zone.zero, false) := by
  have hlen : ¬ (p ++ [c]).length < 2 := by
    have : 0 < p.length := List.length_pos.mpr hp
    simp only [List.length_append, List.length_singleton]; omega
  have htake : (p ++ [c]).take ((p ++ [c]).length - 1) = p := by
    simp
  have hget : ∀ h, (p ++ [c]).get ⟨(p ++ [c]).length - 1, h⟩ = c := by
    intro h
    simp
  unfold ParseZone
  rw [dif_neg hlen]
  simp only [htake, hget]

set_option maxRecDepth 100000 in
theorem stringOfByte_of_bandLetter {c : Byte} (h : IsBandLetter c) : stringOfByte c = [c] := by
  revert c; decide

theorem all_isDigit_iff (ds : GoString) :
    ds.all isDigit = true ↔ ∀ c ∈ ds, 48 ≤ c ∧ c ≤ 57 := by
  simp [List.all_eq_true, isDigit]

theorem Atoi_plus (t : GoString) : Atoi (43 :: t) = atoiDigits false t := by
  simp [Atoi]

theorem Atoi_minus (t : GoString) : Atoi (45 :: t) = atoiDigits true t := by
  simp [Atoi]

theorem Atoi_unsigned (p : GoString) (h : p.head? ≠ some 43) (h' : p.head? ≠ some 45) :
    Atoi p = atoiDigits false p := by
  simp [Atoi, h, h']

theorem atoiDigits_eq_some {neg : Bool} {ds : GoString} {n : Int} :
    atoiDigits neg ds = some n ↔
      ds ≠ [] ∧ (∀ c ∈ ds, 48 ≤ c ∧ c ≤ 57) ∧
      n = (if neg then -(digitsValue ds : Int) else digitsValue ds) ∧
      -2 ^ 63 ≤ n ∧ n < 2 ^ 63 := by
  unfold atoiDigits
  by_cases h1 : ds = []
  · simp [h1]
  by_cases h2 : ds.all isDigit = true
  · have h2' := (all_isDigit_iff ds).mp h2
    simp only [h1, h2, false_or, not_true_eq_false, if_false]
    generalize (if neg = true then -(digitsValue ds : Int) else digitsValue ds) = v
    constructor
    · intro h
      by_cases hr : -2 ^ 63 ≤ v ∧ v < 2 ^ 63
      · rw [if_pos hr] at h
        cases h
        exact ⟨h1, h2', rfl, hr.1, hr.2⟩
      · rw [if_neg hr] at h; cases h
    · rintro ⟨-, -, rfl, hr⟩
      rw [if_pos hr]
  · have h2' : ¬ ∀ c ∈ ds, 48 ≤ c ∧ c ≤ 57 := fun h => h2 ((all_isDigit_iff ds).mpr h)
    simp [h2, h2']

/-- The model `Atoi` accepts exactly the strings that parse as a decimal integer. -/
theorem Atoi_isSome_iff (p : GoString) : (∃ n, Atoi p = some n) ↔ ParsesAsDecimalInt p := by
  unfold ParsesAsDecimalInt
  simp only [← digitsValue_eq]
  constructor
  · rintro ⟨n, hn⟩
    by_cases hp : p.head? = some 43
    · obtain ⟨t, rfl⟩ : ∃ t, p = 43 :: t := by
        cases p with
        | nil => simp at hp
        | cons a t => simp at hp; exact ⟨t, by rw [hp]⟩
      rw [Atoi_plus, atoiDigits_eq_some] at hn
      obtain ⟨a1, a2, rfl, a4, a5⟩ := hn
      refine ⟨ascii "+", t, rfl, Or.inr (Or.inl rfl), a1, a2, fun h => absurd h (by decide), ?_⟩
      intro _
      simp only [Bool.false_eq_true, if_false] at a5
      exact_mod_cast a5
    by_cases hm : p.head? = some 45
    · obtain ⟨t, rfl⟩ : ∃ t, p = 45 :: t := by
        cases p with
        | nil => simp at hm
        | cons a t => simp at hm; exact ⟨t, by rw [hm]⟩
      rw [Atoi_minus, atoiDigits_eq_some] at hn
      obtain ⟨a1, a2, rfl, a4, a5⟩ := hn
      refine ⟨ascii "-", t, rfl, Or.inr (Or.inr rfl), a1, a2, ?_, fun h => absurd rfl h⟩
      intro _
      simp only [if_true] at a4
      have : ((digitsValue t : ℕ) : ℤ) ≤ 2 ^ 63 := by omega
      exact_mod_cast this
    · rw [Atoi_unsigned p hp hm, atoiDigits_eq_some] at hn
      obtain ⟨a1, a2, rfl, a4, a5⟩ := hn
      refine ⟨[], p, rfl, Or.inl rfl, a1, a2, fun h => absurd h (by decide), ?_⟩
      intro _
      simp only [Bool.false_eq_true, if_false] at a5
      exact_mod_cast a5
  · rintro ⟨sign, ds, rfl, hs, a1, a2, a3, a4⟩
    rcases hs with rfl | rfl | rfl
    · have hne : ∀ b : Byte, b = 43 ∨ b = 45 → ¬ (48 ≤ b ∧ b ≤ 57) := by
        rintro b (rfl | rfl) <;> decide
      have h1 : (([] : GoString) ++ ds).head? ≠ some 43 := by
        cases ds with
        | nil => exact absurd rfl a1
        | cons a t =>
          simp only [List.nil_append, List.head?_cons, ne_eq, Option.some.injEq]
          intro h
          exact hne a (Or.inl h) (a2 a (List.mem_cons_self _ _))
      have h2 : (([] : GoString) ++ ds).head? ≠ some 45 := by
        cases ds with
        | nil => exact absurd rfl a1
        | cons a t =>
          simp only [List.nil_append, List.head?_cons, ne_eq, Option.some.injEq]
          intro h
          exact hne a (Or.inr h) (a2 a (List.mem_cons_self _ _))
      refine ⟨digitsValue ds, ?_⟩
      rw [Atoi_unsigned _ h1 h2, atoiDigits_eq_some]
      have := a4 (by decide)
      refine ⟨a1, a2, by simp, by have := Int.natCast_nonneg (digitsValue ds); omega,
        by exact_mod_cast this⟩
    · refine ⟨digitsValue ds, ?_⟩
      show Atoi (43 :: ds) = _
      rw [Atoi_plus, atoiDigits_eq_some]
      have := a4 (by decide)
      refine ⟨a1, a2, by simp, by have := Int.natCast_nonneg (digitsValue ds); omega,
        by exact_mod_cast this⟩
    · refine ⟨-(digitsValue ds : ℤ), ?_⟩
      show Atoi (45 :: ds) = _
      rw [Atoi_minus, atoiDigits_eq_some]
      have := a3 rfl
      have h' : ((digitsValue ds : ℕ) : ℤ) ≤ 2 ^ 63 := by exact_mod_cast this
      refine ⟨a1, a2, by simp, by omega, by omega⟩

theorem natText_ne_nil (m : Nat) : natText m ≠ [] := by
  unfold natText
  split_ifs with h
  · simp
  · simp [Nat.digits_ne_nil_iff_ne_zero, h]

theorem natText_digits (m : Nat) : ∀ c ∈ natText m, 48 ≤ c ∧ c ≤ 57 := by
  unfold natText
  split_ifs with h
  · intro c hc
    simp only [List.mem_singleton] at hc
    subst hc; decide
  · intro c hc
    simp only [List.mem_map, List.mem_reverse] at hc
    obtain ⟨d, hd, rfl⟩ := hc
    have hd10 : d < 10 := Nat.digits_lt_base (by norm_num) hd
    have : ∀ d : Fin 10, (48 : Byte) ≤ byte (48 + d.val) ∧ byte (48 + d.val) ≤ 57 := by
      decide
    exact this ⟨d, hd10⟩

theorem digitsValue_natText (m : Nat) : digitsValue (natText m) = m := by
  rw [digitsValue_eq]
  unfold natText
  split_ifs with h
  · subst h; rfl
  · rw [← List.map_reverse, List.reverse_reverse, List.map_map]
    have : List.map ((fun c : Byte => c.val - 48) ∘ fun d => byte (48 + d)) (Nat.digits 10 m)
        = Nat.digits 10 m := by
      conv_rhs => rw [← List.map_id (Nat.digits 10 m)]
      apply List.map_congr_left
      intro d hd
      have hd10 : d < 10 := Nat.digits_lt_base (by norm_num) hd
      simp only [Function.comp, byte, id]
      omega
    rw [this, Nat.ofDigits_digits]

theorem natText_head (m : Nat) :
    (natText m).head? ≠ some 43 ∧ (natText m).head? ≠ some 45 := by
  have h := natText_digits m
  have hne := natText_ne_nil m
  cases hl : natText m with
  | nil => exact absurd hl hne
  | cons a t =>
    rw [hl] at h
    have ha := h a (List.mem_cons_self _ _)
    simp only [List.head?_cons, ne_eq, Option.some.injEq]
    constructor
    · rintro rfl; revert ha; decide
    · rintro rfl; revert ha; decide

/-- The model `Atoi` reads back the decimal text of every 64-bit integer. -/
theorem Atoi_decimalText (n : Int) (h1 : -2 ^ 63 ≤ n) (h2 : n < 2 ^ 63) :
    Atoi (decimalText n) = some n := by
  unfold decimalText
  by_cases hn : n < 0
  · rw [if_pos hn, Atoi_minus, atoiDigits_eq_some]
    refine ⟨natText_ne_nil _, natText_digits _, ?_, h1, h2⟩
    rw [digitsValue_natText]; simp only [if_true]; omega
  · rw [if_neg hn, Atoi_unsigned _ (natText_head _).1 (natText_head _).2, atoiDigits_eq_some]
    refine ⟨natText_ne_nil _, natText_digits _, ?_, h1, h2⟩
    rw [digitsValue_natText]; simp only [Bool.false_eq_true, if_false]; omega

/-! ## The letter and the hemisphere -/

theorem letters_hemisphere : ∀ i : Fin 21, ∃ b, letters[i.val]? = some b ∧
    (10 ≤ i.val → b ∈ ascii "NPQRSTUVWX") ∧ (i.val ≤ 9 → b ∈ ascii "CDEFGHJKLM") := by
  decide

/-- The letter of `LatLonZone` agrees with the hemisphere flag at every latitude
outside the interval (-2^-46, 0): a non-empty letter is one of N..X when North
is true and one of C..M when North is false. -/
theorem LatLonZone_letter_hemisphere (latitude longitude : F64)
    (h : ¬ (F64.fin (-(1 / 2 ^ 46)) < latitude ∧ latitude < F64.fin 0)) :
    ∃ z, LatLonZone latitude longitude = some z ∧
      (z.L = [] ∨ ∃ b, z.L = [b] ∧ (z.North = true → b ∈ ascii "NPQRSTUVWX") ∧
        (z.North = false → b ∈ ascii "CDEFGHJKLM")) := by
  obtain ⟨z, hz, hn, hl⟩ := LatLonZone_shape latitude longitude
  refine ⟨z, hz, ?_⟩
  rcases hl with hl | hl
  · exact Or.inl hl
  unfold LetterOf at hl
  by_cases hg : F64.fin (-80) ≤ latitude ∧ latitude ≤ F64.fin 84
  · rw [if_pos hg] at hl
    obtain ⟨x, b, rfl, hb, hL⟩ := hl
    have hx1 : -80 ≤ x := (F64.fin_le_fin _ _).mp hg.1
    have hx2 : x ≤ 84 := (F64.fin_le_fin _ _).mp hg.2
    obtain ⟨-, e2, e3⟩ := toInt_lat_add_80 hx1 hx2
    obtain ⟨b', hb', hN, hS⟩ := letters_hemisphere ⟨(⌊fl (x + 80)⌋ / 8).toNat, by omega⟩
    simp only at hb' hN hS
    rw [hb] at hb'
    cases hb'
    refine Or.inr ⟨b, hL, ?_, ?_⟩
    · intro hnorth
      rw [hn] at hnorth
      have hx0 : 0 ≤ x := (F64.fin_le_fin _ _).mp (of_decide_eq_true hnorth)
      have c1 : (80 : ℚ) ≤ fl (x + 80) := by
        have := fl_mono (show (0 : ℚ) ≤ 80 by norm_num) (show (80 : ℚ) ≤ x + 80 by linarith)
        have f : fl 80 = 80 := by simpa using fl_intCast 80 (by norm_num)
        rwa [f] at this
      have c2 : (80 : ℤ) ≤ ⌊fl (x + 80)⌋ := by
        rw [Int.le_floor]; exact_mod_cast c1
      exact hN (by omega)
    · intro hsouth
      rw [hn] at hsouth
      have hx0 : ¬ 0 ≤ x := fun c =>
        of_decide_eq_false hsouth ((F64.fin_le_fin _ _).mpr c)
      have hx3 : x ≤ -(1 / 2 ^ 46) := by
        by_contra c
        exact h ⟨(F64.fin_lt_fin _ _).mpr (not_le.mp c),
          (F64.fin_lt_fin _ _).mpr (not_le.mp hx0)⟩
      have f : fl (80 - 1 / 2 ^ 46) = 80 - 1 / 2 ^ 46 := by
        have := fl_eq_self (80 * 2 ^ 46 - 1) (-46) (by norm_num) (by norm_num)
        have e : (((80 * 2 ^ 46 - 1 : ℤ) : ℚ) * 2 ^ (-46 : ℤ)) = 80 - 1 / 2 ^ 46 := by
          norm_num
        rwa [e] at this
      have c1 : fl (x + 80) ≤ 80 - 1 / 2 ^ 46 := by
        have := fl_mono (show (0 : ℚ) ≤ x + 80 by linarith)
          (show x + 80 ≤ 80 - 1 / 2 ^ 46 by linarith)
        rwa [f] at this
      have c2 : ⌊fl (x + 80)⌋ < 80 := by
        rw [Int.floor_lt]
        have : (80 : ℚ) - 1 / 2 ^ 46 < 80 := by norm_num
        push_cast; linarith
      exact hS (by omega)
  · rw [if_neg hg] at hl
    exact Or.inl hl

/-- The letter of a Zone parsed by `ParseZone` is the last byte of the text, a
band letter, and agrees with the hemisphere flag. -/
theorem ParseZone_letter_hemisphere (s : GoString) (z : Zone) (h : ParseZone s = (z, true)) :
    ∃ c, z.L = [c] ∧ IsBandLetter c ∧
      (z.North = true ↔ (c ∈ ascii "NPQRSTUVWX" ∨ c ∈ ascii "npqrstuvwx")) := by
  unfold ParseZone at h
  split_ifs at h with hlen
  · cases h
  · simp only at h
    split at h
    · cases h
    · rename_i n hA
      split_ifs at h with c1 c2
      · cases h
        have hb := (toUpper_mem_iff _).mp (Or.inl c1)
        exact ⟨_, stringOfByte_of_bandLetter hb, hb, by simpa using (toUpper_north_iff _).mp c1⟩
      · cases h
        have hb := (toUpper_mem_iff _).mp (Or.inr c2)
        refine ⟨_, stringOfByte_of_bandLetter hb, hb, ?_⟩
        constructor
        · intro h; cases h
        · intro h; exact absurd ((toUpper_north_iff _).mpr h) c1
      · cases h

/-! ## The range of the zone number -/

/-- The zone number of every result: a constant of a special case or the
number of the general rule. -/
theorem LatLonZone_number_cases (latitude longitude : F64) :
    ∃ z, LatLonZone latitude longitude = some z ∧
      (z.N = 32 ∨ z.N = 31 ∨ z.N = 33 ∨ z.N = 35 ∨ z.N = 37 ∨
        z.N = wrapInt (F64.toInt ((longitude + F64.fin 180) / F64.fin 6) + 1)) := by
  obtain ⟨l, hl, -⟩ := general_eq latitude longitude (decide (latitude ≥ F64.fin 0))
  unfold LatLonZone
  simp only []
  split_ifs
  · exact ⟨_, rfl, Or.inl rfl⟩
  · exact ⟨_, rfl, Or.inr (Or.inl rfl)⟩
  · exact ⟨_, rfl, Or.inr (Or.inr (Or.inl rfl))⟩
  · exact ⟨_, rfl, Or.inr (Or.inr (Or.inr (Or.inl rfl)))⟩
  · exact ⟨_, rfl, Or.inr (Or.inr (Or.inr (Or.inr (Or.inl rfl))))⟩
  · exact ⟨_, hl, Or.inr (Or.inr (Or.inr (Or.inr (Or.inr rfl))))⟩
  · exact ⟨_, hl, Or.inr (Or.inr (Or.inr (Or.inr (Or.inr rfl))))⟩

/-- The float64 value below 360 and its sixth. -/
theorem fl_below_360 :
    fl (360 - 1 / 2 ^ 44) = 360 - 1 / 2 ^ 44 ∧
    fl ((360 - 1 / 2 ^ 44) / 6) = 60 - 1 / 2 ^ 47 := by
  constructor
  · have := fl_eq_self (360 * 2 ^ 44 - 1) (-44) (by norm_num) (by norm_num)
    have e : (((360 * 2 ^ 44 - 1 : ℤ) : ℚ) * 2 ^ (-44 : ℤ)) = 360 - 1 / 2 ^ 44 := by
      norm_num
    rwa [e] at this
  · rw [fl_eval (k := 5) (n := 60 * 2 ^ 47 - 1) (by norm_num) (by norm_num [abs_of_pos])
      (by norm_num [abs_of_pos])]
    · norm_num
    · norm_num [roundHalfEven]

/-- For every latitude and every longitude from -180 up to the float64 value
below 180 but one, namely 180 - 2^-44, the zone number is between 1 and 60. -/
theorem LatLonZone_number_range (latitude : F64) (x : ℚ) (h1 : -180 ≤ x)
    (h2 : x ≤ 180 - 1 / 2 ^ 44) :
    ∃ z, LatLonZone latitude (F64.fin x) = some z ∧ 1 ≤ z.N ∧ z.N ≤ 60 := by
  obtain ⟨z, hz, hN⟩ := LatLonZone_number_cases latitude (F64.fin x)
  refine ⟨z, hz, ?_⟩
  have hx62 : x ≤ 2 ^ 62 := le_trans h2 (by norm_num)
  have a0 : (0 : ℚ) ≤ x + 180 := by linarith
  have b0 : 0 ≤ fl (x + 180) := fl_nonneg a0
  have b1 : fl (x + 180) ≤ 360 - 1 / 2 ^ 44 := by
    have := fl_mono a0 (show x + 180 ≤ 360 - 1 / 2 ^ 44 by linarith)
    rwa [fl_below_360.1] at this
  have c0 : (0 : ℚ) ≤ fl (x + 180) / 6 := by positivity
  have d0 : 0 ≤ fl (fl (x + 180) / 6) := fl_nonneg c0
  have d1 : fl (fl (x + 180) / 6) ≤ 60 - 1 / 2 ^ 47 := by
    have := fl_mono c0 (show fl (x + 180) / 6 ≤ (360 - 1 / 2 ^ 44) / 6 by linarith)
    rwa [fl_below_360.2] at this
  have e0 : 0 ≤ ⌊fl (fl (x + 180) / 6)⌋ := Int.floor_nonneg.mpr d0
  have e1 : ⌊fl (fl (x + 180) / 6)⌋ < 60 := by
    rw [Int.floor_lt]
    have : (60 : ℚ) - 1 / 2 ^ 47 < 60 := by norm_num
    push_cast; linarith
  rw [zoneNumber_eq h1 hx62] at hN
  omega

/-! ## The claims -/

/-- C1 (as amended): for every latitude and every longitude at which neither
the Norway nor the Svalbard exception returns and whose quotient
`q = (longitude + 180) / 6`, computed in float64 as the code does, is in the
range of a 64-bit `int`, the zone number returned by `LatLonZone` is
`int(q) + 1`, the conversion truncating toward zero.  It equals
`floor(q) + 1` exactly when `q >= 0` or `q` is a whole number; so it does for
every such longitude from -180 on.  Against exact arithmetic, from -180 on:
the number is `floor((longitude + 180) / 6) + 1` with the exact quotient
whenever neither float64 operation rounds, and that value or one more for
every longitude up to 2^50. -/
theorem LatLonZone_number (latitude : F64) (x : ℚ)
    (hno : ¬ (F64.fin 56 ≤ latitude ∧ latitude ≤ F64.fin 64 ∧
      F64.fin 3 ≤ F64.fin x ∧ F64.fin x ≤ F64.fin 12))
    (hsv : ¬ (F64.fin 72 ≤ latitude ∧ latitude ≤ F64.fin 84 ∧
      F64.fin 0 ≤ F64.fin x ∧ F64.fin x ≤ F64.fin 42))
    (h1 : -2 ^ 63 ≤ fl (fl (x + 180) / 6)) (h2 : fl (fl (x + 180) / 6) < 2 ^ 63) :
    ∃ z q, LatLonZone latitude (F64.fin x) = some z ∧
      (F64.fin x + F64.fin 180) / F64.fin 6 = F64.fin q ∧
      q = fl (fl (x + 180) / 6) ∧
      z.N = F64.truncate q + 1 ∧
      (z.N = ⌊q⌋ + 1 ↔ (0 ≤ q ∨ ((⌊q⌋ : ℤ) : ℚ) = q)) ∧
      (-180 ≤ x → 0 ≤ q ∧ z.N = ⌊q⌋ + 1) ∧
      (-180 ≤ x → fl (x + 180) = x + 180 → fl ((x + 180) / 6) = (x + 180) / 6 →
        z.N = ⌊(x + 180) / 6⌋ + 1) ∧
      (-180 ≤ x → x ≤ 2 ^ 50 →
        ⌊(x + 180) / 6⌋ + 1 ≤ z.N ∧ z.N ≤ ⌊(x + 180) / 6⌋ + 2) := by
  obtain ⟨l, hl, -⟩ := general_eq latitude (F64.fin x) (decide (latitude ≥ F64.fin 0))
  have hN := zoneNumber_of_fits h1 h2
  have hq := quotient_of_fits (x := x) (abs_le.mpr ⟨by linarith, le_of_lt h2⟩)
  have hfloor : -180 ≤ x → 0 ≤ fl (fl (x + 180) / 6) ∧
      wrapInt (F64.toInt ((F64.fin x + F64.fin 180) / F64.fin 6) + 1)
        = ⌊fl (fl (x + 180) / 6)⌋ + 1 := by
    intro hx
    have a0 : (0 : ℚ) ≤ x + 180 := by linarith
    have c0 : (0 : ℚ) ≤ fl (x + 180) / 6 := div_nonneg (fl_nonneg a0) (by norm_num)
    have d0 := fl_nonneg c0
    refine ⟨d0, ?_⟩
    rw [hN, (truncate_eq_floor_iff _).mpr (Or.inl d0)]
  refine ⟨Zone.mk (wrapInt (F64.toInt ((F64.fin x + F64.fin 180) / F64.fin 6) + 1)) l
    (decide (latitude ≥ F64.fin 0)), fl (fl (x + 180) / 6), ?_, hq, rfl, hN, ?_, hfloor,
    ?_, ?_⟩
  · rw [LatLonZone_eq_general _ _ hno hsv]; exact hl
  · show wrapInt _ = _ ↔ _
    rw [hN, ← truncate_eq_floor_iff]
    constructor
    · intro h; omega
    · intro h; omega
  · intro hx e1 e2
    show wrapInt _ = _
    rw [(hfloor hx).2, e1, e2]
  · intro hx h50
    show _ ≤ wrapInt _ ∧ wrapInt _ ≤ _
    rw [(hfloor hx).2]
    have a0 : (0 : ℚ) ≤ (x + 180) / 6 := by linarith
    have hk0 : 0 ≤ ⌊(x + 180) / 6⌋ := Int.floor_nonneg.mpr a0
    have hk1 : ((⌊(x + 180) / 6⌋ : ℤ) : ℚ) ≤ (x + 180) / 6 := Int.floor_le _
    have hk2 : (x + 180) / 6 < ((⌊(x + 180) / 6⌋ : ℤ) : ℚ) + 1 := Int.lt_floor_add_one _
    have hk3 : ⌊(x + 180) / 6⌋ < 2 ^ 48 := by
      have : ((⌊(x + 180) / 6⌋ : ℤ) : ℚ) < ((2 ^ 48 : ℤ) : ℚ) := by
        push_cast; linarith
      exact_mod_cast this
    obtain ⟨s1, s2⟩ := fl_between (a := x + 180) (m := 6 * ⌊(x + 180) / 6⌋)
      (n := 6 * ⌊(x + 180) / 6⌋ + 6) (by omega) (by omega) (by push_cast; linarith)
      (by push_cast; linarith)
    push_cast at s1 s2
    obtain ⟨q1, q2⟩ := fl_between (a := fl (x + 180) / 6) (m := ⌊(x + 180) / 6⌋)
      (n := ⌊(x + 180) / 6⌋ + 1) hk0 (by omega) (by linarith) (by push_cast; linarith)
    obtain ⟨r1, r2⟩ := floor_between q1 q2
    omega

theorem LatLonZone_number_witness :
    ∃ z q, LatLonZone (F64.fin 0) (F64.fin (-186)) = some z ∧
      (F64.fin (-186) + F64.fin 180) / F64.fin 6 = F64.fin q ∧
      q = fl (fl (-186 + 180) / 6) ∧
      z.N = F64.truncate q + 1 ∧
      (z.N = ⌊q⌋ + 1 ↔ (0 ≤ q ∨ ((⌊q⌋ : ℤ) : ℚ) = q)) ∧
      ((-180 : ℚ) ≤ -186 → 0 ≤ q ∧ z.N = ⌊q⌋ + 1) ∧
      ((-180 : ℚ) ≤ -186 → fl (-186 + 180) = -186 + 180 →
        fl ((-186 + 180) / 6) = (-186 + 180) / 6 →
        z.N = ⌊((-186 : ℚ) + 180) / 6⌋ + 1) ∧
      ((-180 : ℚ) ≤ -186 → (-186 : ℚ) ≤ 2 ^ 50 →
        ⌊((-186 : ℚ) + 180) / 6⌋ + 1 ≤ z.N ∧
          z.N ≤ ⌊((-186 : ℚ) + 180) / 6⌋ + 2) :=
  LatLonZone_number (F64.fin 0) (-186) (by simp) (by simp)
    (by rw [quotient_neg186]; norm_num) (by rw [quotient_neg186]; norm_num)

/-- C1 fails as stated, at two inputs where neither exception returns.
At longitude -183 the float64 quotient `(longitude + 180) / 6` is exactly
-0.5; the conversion `int` truncates it to 0 and the number is 1, not
floor(-0.5) + 1 = 0.  At longitude 2^70 the claimed value does not fit the
64-bit `int` that the function returns. -/
theorem LatLonZone_number_counterexample :
    (LatLonZone (F64.fin 0) (F64.fin (-183)) = some { N := 1, L := ascii "N", North := true } ∧
      (F64.fin (-183) + F64.fin 180) / F64.fin 6 = F64.fin (-(1 / 2)) ∧
      ⌊(-(1 / 2) : ℚ)⌋ + 1 = 0 ∧ ⌊((-183 : ℚ) + 180) / 6⌋ + 1 = 0) ∧
    (∃ z, LatLonZone (F64.fin 0) (F64.fin (2 ^ 70)) = some z ∧ z.N < 2 ^ 63 ∧
      (2 : ℤ) ^ 63 ≤ ⌊((2 ^ 70 : ℚ) + 180) / 6⌋ + 1) := by
  have hf : ⌊(-(1 / 2) : ℚ)⌋ = -1 := by
    rw [Int.floor_eq_iff]; norm_num
  refine ⟨⟨?_, quotient_neg183, ?_, ?_⟩, ?_⟩
  · have := LatLonZone_eval 0 (F64.fin (-183)) 80 10 78 1 (by simp) (by simp)
      (by norm_num) (by norm_num) fl_80 (by norm_num) (by decide) zoneNumber_neg183
    simpa using this
  · rw [hf]; norm_num
  · rw [show ((-183 : ℚ) + 180) / 6 = -(1 / 2) by norm_num, hf]; norm_num
  · have := LatLonZone_eval 0 (F64.fin (2 ^ 70)) 80 10 78 _ (by simp) (by simp)
      (by norm_num) (by norm_num) fl_80 (by norm_num) (by decide) rfl
    refine ⟨_, this, wrapInt_lt _, ?_⟩
    have : (2 : ℤ) ^ 63 - 1 ≤ ⌊((2 ^ 70 : ℚ) + 180) / 6⌋ := by
      rw [Int.le_floor]; norm_num
    omega

/-- C2 (as amended): at latitude exactly 84, `LatLonZone` returns an empty
letter when the longitude is in [0, 42] (a Svalbard sub-band returns) and the
letter "X" for every other longitude, the negative ones included. -/
theorem LatLonZone_lat84 (longitude : F64) :
    ∃ z, LatLonZone (F64.fin 84) longitude = some z ∧
      z.L = if F64.fin 0 ≤ longitude ∧ longitude ≤ F64.fin 42 then [] else ascii "X" := by
  have hno : ¬ (F64.fin 56 ≤ F64.fin 84 ∧ F64.fin 84 ≤ F64.fin 64 ∧
      F64.fin 3 ≤ longitude ∧ longitude ≤ F64.fin 12) := by
    simp only [F64.fin_le_fin]; intro h; linarith [h.2.1]
  by_cases hs : F64.fin 0 ≤ longitude ∧ longitude ≤ F64.fin 42
  · obtain ⟨z, hz, _, hL, _⟩ := svalbard_eq (F64.fin 84) longitude
      (by simp; norm_num) (by simp) hs.1 hs.2
    exact ⟨z, hz, by rw [hL, if_pos hs]⟩
  · have hsv : ¬ (F64.fin 72 ≤ F64.fin 84 ∧ F64.fin 84 ≤ F64.fin 84 ∧
        F64.fin 0 ≤ longitude ∧ longitude ≤ F64.fin 42) := fun h => hs h.2.2
    have f : fl (84 + 80) = 164 := by
      have := fl_intCast 164 (by norm_num)
      norm_num at this ⊢
      exact this
    have := LatLonZone_eval 84 longitude 164 20 88 _ hno hsv (by norm_num) (by norm_num) f
      (by norm_num) (by decide) rfl
    exact ⟨_, this, by rw [if_neg hs]; rfl⟩

/-- C2 fails as stated: at latitude 84 and longitude -6 the general rule runs,
the guard `latitude <= 84` holds and the letter is "X". -/
theorem LatLonZone_lat84_counterexample :
    LatLonZone (F64.fin 84) (F64.fin (-6)) = some { N := 30, L := ascii "X", North := true } := by
  have f : fl (84 + 80) = 164 := by
    have := fl_intCast 164 (by norm_num)
    norm_num at this ⊢
    exact this
  have := LatLonZone_eval 84 (F64.fin (-6)) 164 20 88 30 (by simp; norm_num) (by simp)
    (by norm_num) (by norm_num) f
    (by norm_num) (by decide) zoneNumber_neg6
  simpa using this

/-- C3 (as amended): for every latitude in [-80, 84) and every longitude at
which neither exception returns, the letter returned by `LatLonZone` is the
entry of the 21-character table "CDEFGHJKLMNPQRSTUVWXX" at index
`floor(s / 8)`, where `s` is the float64 sum `latitude + 80` the code
computes; that index is `floor((latitude + 80) / 8)` whenever the sum is
exact, and that value or one more in every case; the letter is "X" for every
latitude in [72, 84). -/
theorem LatLonZone_letter (x : ℚ) (longitude : F64)
    (hno : ¬ (F64.fin 56 ≤ F64.fin x ∧ F64.fin x ≤ F64.fin 64 ∧
      F64.fin 3 ≤ longitude ∧ longitude ≤ F64.fin 12))
    (hsv : ¬ (F64.fin 72 ≤ F64.fin x ∧ F64.fin x ≤ F64.fin 84 ∧
      F64.fin 0 ≤ longitude ∧ longitude ≤ F64.fin 42))
    (h1 : -80 ≤ x) (h2 : x < 84) :
    ∃ z b, LatLonZone (F64.fin x) longitude = some z ∧ z.L = [b] ∧
      F64.fin x + F64.fin 80 = F64.fin (fl (x + 80)) ∧
      0 ≤ ⌊fl (x + 80) / 8⌋ ∧ letters[⌊fl (x + 80) / 8⌋.toNat]? = some b ∧
      (fl (x + 80) = x + 80 → letters[⌊(x + 80) / 8⌋.toNat]? = some b) ∧
      (⌊fl (x + 80) / 8⌋ = ⌊(x + 80) / 8⌋ ∨
        ⌊fl (x + 80) / 8⌋ = ⌊(x + 80) / 8⌋ + 1) ∧
      (72 ≤ x → [b] = ascii "X") := by
  obtain ⟨l, hl, hL⟩ := general_eq (F64.fin x) longitude (decide (F64.fin x ≥ F64.fin 0))
  unfold LetterOf at hL
  rw [if_pos ⟨(F64.fin_le_fin _ _).mpr h1, (F64.fin_le_fin _ _).mpr (le_of_lt h2)⟩] at hL
  obtain ⟨x', b, hx, hb, rfl⟩ := hL
  cases hx
  obtain ⟨-, e2, e3⟩ := toInt_lat_add_80 h1 (le_of_lt h2)
  have a0 : (0 : ℚ) ≤ x + 80 := by linarith
  have b0 : 0 ≤ fl (x + 80) := fl_nonneg a0
  have b1 : fl (x + 80) ≤ 164 := by
    have := fl_mono a0 (show x + 80 ≤ 164 by linarith)
    rwa [fl_164] at this
  have hsum : F64.fin x + F64.fin 80 = F64.fin (fl (x + 80)) := by
    rw [F64.add_fin, F64.round_of_le]
    rw [abs_of_nonneg b0]; exact le_trans b1 (by norm_num)
  refine ⟨Zone.mk (wrapInt (F64.toInt ((longitude + F64.fin 180) / F64.fin 6) + 1)) [b]
    (decide (F64.fin x ≥ F64.fin 0)), b, ?_, rfl, hsum, ?_, ?_, ?_, ?_, ?_⟩
  · rw [LatLonZone_eq_general _ _ hno hsv]; exact hl
  · rw [floor_div_eight]; omega
  · rw [floor_div_eight]; exact hb
  · intro e
    rw [floor_div_eight, ← e]; exact hb
  · rw [floor_div_eight, floor_div_eight]
    have hk0 : 0 ≤ ⌊x + 80⌋ := Int.floor_nonneg.mpr a0
    have hk1 : ((⌊x + 80⌋ : ℤ) : ℚ) ≤ x + 80 := Int.floor_le _
    have hk2 : x + 80 < ((⌊x + 80⌋ : ℤ) : ℚ) + 1 := Int.lt_floor_add_one _
    have hk3 : ⌊x + 80⌋ ≤ 164 := by
      have : ⌊x + 80⌋ ≤ ⌊(164 : ℚ)⌋ := Int.floor_mono (by linarith)
      simpa using this
    obtain ⟨s1, s2⟩ := fl_between (a := x + 80) (m := ⌊x + 80⌋ / 8 * 8)
      (n := ⌊x + 80⌋ / 8 * 8 + 8) (by omega) (by omega)
      (le_trans (by exact_mod_cast (show ⌊x + 80⌋ / 8 * 8 ≤ ⌊x + 80⌋ by omega)) hk1)
      (le_trans (le_of_lt hk2)
        (by exact_mod_cast (show ⌊x + 80⌋ + 1 ≤ ⌊x + 80⌋ / 8 * 8 + 8 by omega)))
    obtain ⟨r1, r2⟩ := floor_between s1 s2
    omega
  · intro h72
    have c1 : (152 : ℚ) ≤ fl (x + 80) := by
      have := fl_mono (show (0 : ℚ) ≤ 152 by norm_num) (show (152 : ℚ) ≤ x + 80 by linarith)
      have f : fl 152 = 152 := by simpa using fl_intCast 152 (by norm_num)
      rwa [f] at this
    have c2 : (152 : ℤ) ≤ ⌊fl (x + 80)⌋ := by
      rw [Int.le_floor]; exact_mod_cast c1
    have c3 : ⌊fl (x + 80)⌋ / 8 = 19 ∨ ⌊fl (x + 80)⌋ / 8 = 20 := by omega
    rcases c3 with c | c
    · rw [c] at hb
      have : letters[(19 : ℤ).toNat]? = some 88 := by decide
      rw [this] at hb; cases hb; rfl
    · rw [c] at hb
      have : letters[(20 : ℤ).toNat]? = some 88 := by decide
      rw [this] at hb; cases hb; rfl

theorem LatLonZone_letter_witness :
    ∃ z b, LatLonZone (F64.fin 45) (F64.fin 10) = some z ∧ z.L = [b] ∧
      F64.fin 45 + F64.fin 80 = F64.fin (fl (45 + 80)) ∧
      0 ≤ ⌊fl (45 + 80) / 8⌋ ∧ letters[⌊fl (45 + 80) / 8⌋.toNat]? = some b ∧
      (fl (45 + 80) = 45 + 80 → letters[⌊((45 : ℚ) + 80) / 8⌋.toNat]? = some b) ∧
      (⌊fl (45 + 80) / 8⌋ = ⌊((45 : ℚ) + 80) / 8⌋ ∨
        ⌊fl (45 + 80) / 8⌋ = ⌊((45 : ℚ) + 80) / 8⌋ + 1) ∧
      ((72 : ℚ) ≤ 45 → [b] = ascii "X") :=
  LatLonZone_letter 45 (F64.fin 10) (by simp; norm_num) (by simp; norm_num)
    (by norm_num) (by norm_num)

/-- C3 fails as stated: the float64 latitude 8 - 2^-50 lies in the band [0, 8),
whose index `floor((latitude + 80) / 8)` is 10, letter "N"; but the float64
sum `latitude + 80` is 88 and `LatLonZone` returns the letter "P" of
index 11.  Neither exception returns at this latitude. -/
theorem LatLonZone_letter_counterexample :
    F64.Representable (F64.fin (8 - 1 / 2 ^ 50)) ∧
    LatLonZone (F64.fin (8 - 1 / 2 ^ 50)) (F64.fin 0)
      = some { N := 31, L := ascii "P", North := true } ∧
    ⌊((8 - 1 / 2 ^ 50 : ℚ) + 80) / 8⌋ = 10 ∧ letters[10]? = (ascii "N").head? ∧
    ascii "N" ≠ ascii "P" := by
  refine ⟨?_, ?_, ?_, by decide, by decide⟩
  · have := representable_of_dyadic (8 * 2 ^ 50 - 1) (-50) (by norm_num) (by norm_num)
      (by norm_num)
    have e : (((8 * 2 ^ 50 - 1 : ℤ) : ℚ) * 2 ^ (-50 : ℤ)) = 8 - 1 / 2 ^ 50 := by
      norm_num
    rwa [e] at this
  · have := LatLonZone_eval (8 - 1 / 2 ^ 50) (F64.fin 0) 88 11 80 31 (by norm_num) (by norm_num)
      (by norm_num) (by norm_num) fl_88_up (by norm_num) (by decide) zoneNumber_0
    rw [show decide ((0 : ℚ) ≤ 8 - 1 / 2 ^ 50) = true from decide_eq_true (by norm_num)] at this
    exact this
  · rw [Int.floor_eq_iff]; norm_num

/-- C4: for every latitude in [56, 64] and every longitude in [3, 12], bounds
included, `LatLonZone` returns exactly `Zone{N: 32, L: "", North: true}`. -/
theorem LatLonZone_norway (latitude longitude : F64)
    (h1 : F64.fin 56 ≤ latitude) (h2 : latitude ≤ F64.fin 64)
    (h3 : F64.fin 3 ≤ longitude) (h4 : longitude ≤ F64.fin 12) :
    LatLonZone latitude longitude = some { N := 32, L := [], North := true } := by
  obtain ⟨x, rfl, hx1, hx2⟩ := F64.eq_fin_of_between h1 h2
  have hn : F64.fin x ≥ F64.fin 0 := (F64.fin_le_fin 0 x).mpr (by linarith)
  unfold LatLonZone
  simp only [if_pos (And.intro h1 (And.intro h2 (And.intro h3 h4))), decide_eq_true hn]

theorem LatLonZone_norway_witness :
    LatLonZone (F64.fin 60) (F64.fin 5) = some { N := 32, L := [], North := true } :=
  LatLonZone_norway (F64.fin 60) (F64.fin 5) (by simp; norm_num) (by simp; norm_num)
    (by simp; norm_num) (by simp; norm_num)

/-- C5: for every latitude in [72, 84] and every longitude in [0, 42],
`LatLonZone` returns a northern Zone with empty letter whose number is 31 for
a longitude in [0, 9], 33 in (9, 21], 35 in (21, 33] and 37 in (33, 42]. -/
theorem LatLonZone_svalbard (latitude longitude : F64)
    (h1 : F64.fin 72 ≤ latitude) (h2 : latitude ≤ F64.fin 84)
    (h3 : F64.fin 0 ≤ longitude) (h4 : longitude ≤ F64.fin 42) :
    ∃ z, LatLonZone latitude longitude = some z ∧ z.North = true ∧ z.L = [] ∧
      (longitude ≤ F64.fin 9 → z.N = 31) ∧
      (F64.fin 9 < longitude → longitude ≤ F64.fin 21 → z.N = 33) ∧
      (F64.fin 21 < longitude → longitude ≤ F64.fin 33 → z.N = 35) ∧
      (F64.fin 33 < longitude → z.N = 37) :=
  svalbard_eq latitude longitude h1 h2 h3 h4

theorem LatLonZone_svalbard_witness :
    ∃ z, LatLonZone (F64.fin 75) (F64.fin 10) = some z ∧ z.North = true ∧ z.L = [] ∧
      (F64.fin 10 ≤ F64.fin 9 → z.N = 31) ∧
      (F64.fin 9 < F64.fin 10 → F64.fin 10 ≤ F64.fin 21 → z.N = 33) ∧
      (F64.fin 21 < F64.fin 10 → F64.fin 10 ≤ F64.fin 33 → z.N = 35) ∧
      (F64.fin 33 < F64.fin 10 → z.N = 37) :=
  LatLonZone_svalbard (F64.fin 75) (F64.fin 10) (by simp; norm_num) (by simp; norm_num)
    (by simp) (by simp; norm_num)

/-- C6: for every latitude and longitude, on every branch of `LatLonZone`, the
North flag of the returned Zone is true exactly when `latitude >= 0`; in
particular latitude 0 is north. -/
theorem LatLonZone_north (latitude longitude : F64) :
    (∃ z, LatLonZone latitude longitude = some z ∧
      (z.North = true ↔ latitude ≥ F64.fin 0)) ∧
    (∃ z, LatLonZone (F64.fin 0) longitude = some z ∧ z.North = true) := by
  constructor
  · obtain ⟨z, hz, hn, _⟩ := LatLonZone_shape latitude longitude
    exact ⟨z, hz, by rw [hn]; simp⟩
  · obtain ⟨z, hz, hn, _⟩ := LatLonZone_shape (F64.fin 0) longitude
    refine ⟨z, hz, ?_⟩
    rw [hn]
    exact decide_eq_true ((F64.fin_le_fin 0 0).mpr le_rfl)

/-- C7, the failing input: at longitude 180, an end of the conventional range,
`LatLonZone` returns zone number 61, outside 1..60. -/
theorem LatLonZone_lon180 :
    LatLonZone (F64.fin 0) (F64.fin 180) = some { N := 61, L := ascii "N", North := true } := by
  have := LatLonZone_eval 0 (F64.fin 180) 80 10 78 61 (by simp) (by simp)
    (by norm_num) (by norm_num) fl_80
    (by norm_num) (by decide) zoneNumber_180
  simpa using this

/-- C8, the failing input: at the float64 latitude -2^-60, south of the
equator, `latitude + 80` rounds to 80 and `LatLonZone` returns the northern
letter "N" together with `North = false`. -/
theorem LatLonZone_letter_hemisphere_mismatch :
    F64.Representable (F64.fin (-(1 / 2 ^ 60))) ∧
    LatLonZone (F64.fin (-(1 / 2 ^ 60))) (F64.fin 0)
      = some { N := 31, L := ascii "N", North := false } := by
  constructor
  · have := representable_of_dyadic (-1) (-60) (by norm_num) (by norm_num) (by norm_num)
    have e : (((-1 : ℤ) : ℚ) * 2 ^ (-60 : ℤ)) = -(1 / 2 ^ 60) := by norm_num
    rwa [e] at this
  · have := LatLonZone_eval (-(1 / 2 ^ 60)) (F64.fin 0) 80 10 78 31 (by norm_num) (by norm_num)
      (by norm_num) (by norm_num) fl_80_up (by norm_num) (by decide) zoneNumber_0
    rw [show decide ((0 : ℚ) ≤ -(1 / 2 ^ 60)) = false from
      decide_eq_false (by norm_num)] at this
    exact this

/-- C9: `ParseZone(s)` reports success if and only if `s` has at least 2
bytes, the part of `s` before its last byte parses as a decimal integer
(optional sign allowed) and the last byte is, ignoring case, one of the 20
band letters; on every failure the returned Zone is the zero value; "X" and
"32I" fail. -/
theorem ParseZone_success_iff (s : GoString) :
    ((ParseZone s).2 = true ↔
      2 ≤ s.length ∧ ParsesAsDecimalInt s.dropLast ∧
        ∃ c, s.getLast? = some c ∧ IsBandLetter c) ∧
    ((ParseZone s).2 = false → (ParseZone s).1 = Zone.zero) ∧
    ParseZone (ascii "X") = (Zone.zero, false) ∧
    ParseZone (ascii "32I") = (Zone.zero, false) := by
  refine ⟨?_, ?_, by decide, by decide⟩
  · by_cases hlen : s.length < 2
    · have : ParseZone s = (Zone.zero, false) := by
        unfold ParseZone; rw [dif_pos hlen]
      rw [this]
      constructor
      · intro h; cases h
      · rintro ⟨h, -⟩; omega
    · have hs : s ≠ [] := by
        intro h; rw [h] at hlen; simp at hlen
      have hp : s.dropLast ≠ [] := by
        intro h
        have := congrArg List.length h
        simp only [List.length_dropLast, List.length_nil] at this
        omega
      have hsplit : s = s.dropLast ++ [s.getLast hs] := (List.dropLast_append_getLast hs).symm
      have hlast : s.getLast? = some (s.getLast hs) := List.getLast?_eq_getLast _ hs
      rw [hlast]
      generalize s.getLast hs = c at hsplit
      generalize s.dropLast = p at hsplit hp
      subst hsplit
      rw [ParseZone_append p c hp, ← Atoi_isSome_iff]
      have hl : 2 ≤ (p ++ [c]).length := by omega
      cases hA : Atoi p with
      | none =>
        simp only [Bool.false_eq_true, false_iff, not_and]
        intro _ h
        obtain ⟨n, hn⟩ := h
        cases hn
      | some n =>
        have hb := toUpper_mem_iff c
        by_cases c1 : toUpper c ∈ runes "NPQRSTUVWX"
        · simp only [if_pos c1, true_iff]
          exact ⟨hl, ⟨n, rfl⟩, c, rfl, hb.mp (Or.inl c1)⟩
        by_cases c2 : toUpper c ∈ runes "CDEFGHJKLM"
        · simp only [if_neg c1, if_pos c2, true_iff]
          exact ⟨hl, ⟨n, rfl⟩, c, rfl, hb.mp (Or.inr c2)⟩
        · simp only [if_neg c1, if_neg c2, Bool.false_eq_true, false_iff, not_and]
          rintro - - ⟨c', hc', hband⟩
          cases hc'
          rcases hb.mpr hband with h | h
          · exact c1 h
          · exact c2 h
  · unfold ParseZone
    split_ifs with hlen
    · intro _; rfl
    · simp only []
      split
      · intro _; rfl
      · split_ifs
        · intro h; cases h
        · intro h; cases h
        · intro _; rfl

/-- C10: for every integer `n` representable as a 64-bit `int` and every
band letter `c`, upper or lower case, `ParseZone` applied to the decimal text
of `n` followed by `c` succeeds and returns `Zone{N: n, L: c, North: ...}`
with North true exactly for a letter N..X (either case) and the letter kept
in its original case; "32N" gives {32, "N", true} and "4C" gives
{4, "C", false}. -/
theorem ParseZone_decimalText (n : Int) (c : Byte) (h1 : -2 ^ 63 ≤ n) (h2 : n < 2 ^ 63)
    (hc : IsBandLetter c) :
    ParseZone (decimalText n ++ [c]) =
        ({ N := n, L := [c],
           North := decide (c ∈ ascii "NPQRSTUVWX" ∨ c ∈ ascii "npqrstuvwx") }, true) ∧
    ParseZone (ascii "32N") = ({ N := 32, L := ascii "N", North := true }, true) ∧
    ParseZone (ascii "4C") = ({ N := 4, L := ascii "C", North := false }, true) := by
  refine ⟨?_, by decide, by decide⟩
  have hp : decimalText n ≠ [] := by
    unfold decimalText
    split_ifs
    · simp
    · exact natText_ne_nil _
  rw [ParseZone_append _ c hp, Atoi_decimalText n h1 h2]
  simp only [stringOfByte_of_bandLetter hc]
  by_cases c1 : toUpper c ∈ runes "NPQRSTUVWX"
  · rw [if_pos c1, decide_eq_true ((toUpper_north_iff c).mp c1)]
  · have c2 : toUpper c ∈ runes "CDEFGHJKLM" := by
      rcases (toUpper_mem_iff c).mpr hc with h | h
      · exact absurd h c1
      · exact h
    rw [if_neg c1, if_pos c2, decide_eq_false (fun h => c1 ((toUpper_north_iff c).mpr h))]

theorem ParseZone_decimalText_witness :
    decimalText 999 = ascii "999" ∧
    (ParseZone (decimalText 999 ++ [110]) =
        ({ N := 999, L := [110],
           North := decide ((110 : Byte) ∈ ascii "NPQRSTUVWX" ∨
             (110 : Byte) ∈ ascii "npqrstuvwx") },
          true) ∧
      ParseZone (ascii "32N") = ({ N := 32, L := ascii "N", North := true }, true) ∧
      ParseZone (ascii "4C") = ({ N := 4, L := ascii "C", North := false }, true)) :=
  ⟨by simp [decimalText, natText]; decide,
    ParseZone_decimalText 999 110 (by norm_num) (by norm_num) (by decide)⟩

/-! ## Lemmas on SRID codes, the central meridian and the zone strip -/

/-- The `int` expression of `CentralMeridian`, computed with 64-bit wrap-around
at each step, is `6 * N - 183` reduced once. -/
theorem centralMeridian_int (n : Int) :
    wrapInt (wrapInt (wrapInt (wrapInt (n - 1) * 6) - 180) + 3) = wrapInt (6 * n - 183) := by
  unfold wrapInt; omega

theorem ofInt_of_small (n : Int) (h : |n| < 2 ^ 53) : F64.ofInt n = F64.fin n := by
  unfold F64.ofInt
  rw [F64.round_of_le, fl_intCast n h]
  rw [fl_intCast n h]
  have : ((|n| : ℤ) : ℚ) < ((2 ^ 53 : ℤ) : ℚ) := by exact_mod_cast h
  have h' : |(n : ℚ)| < 2 ^ 53 := by simpa using this
  exact le_trans (le_of_lt h') (by norm_num)

/-- The central meridian of a zone whose number is within 2^50 of zero: the
exact value `6 * N - 183`. -/
theorem centralMeridian_exact (z : Zone) (h1 : -2 ^ 50 ≤ z.N) (h2 : z.N ≤ 2 ^ 50) :
    z.CentralMeridian = F64.fin (6 * z.N - 183) := by
  unfold Zone.CentralMeridian
  rw [centralMeridian_int, wrapInt_of_fits (by omega) (by omega),
    ofInt_of_small _ (by rw [abs_lt]; constructor <;> omega)]
  push_cast; rfl

theorem LookupSRID_eq (code : Int) :
    LookupSRID code =
      if 32601 ≤ code ∧ code ≤ 32660 then
        ({ N := code - 32600, L := [], North := true }, true)
      else if 32701 ≤ code ∧ code ≤ 32760 then
        ({ N := code - 32700, L := [], North := false }, true)
      else (Zone.zero, false) := by
  unfold LookupSRID
  split_ifs with h1 h2
  · rw [wrapInt_of_fits (by omega) (by omega)]
  · rw [wrapInt_of_fits (by omega) (by omega)]
  · rfl

theorem SRID_eq (z : Zone) (h : IsInt64 z.N) (h' : z.N + 32700 < 2 ^ 63) :
    z.SRID = if z.North then z.N + 32600 else z.N + 32700 := by
  unfold IsInt64 at h
  unfold Zone.SRID
  split_ifs
  · exact wrapInt_of_fits (by omega) (by omega)
  · exact wrapInt_of_fits (by omega) (by omega)

/-- The codes of `SRID` that `LookupSRID` accepts, for a 64-bit zone number. -/
theorem lookup_SRID_iff (z : Zone) (h : IsInt64 z.N) :
    (32601 ≤ z.SRID ∧ z.SRID ≤ 32660 ∨ 32701 ≤ z.SRID ∧ z.SRID ≤ 32760) ↔
      (1 ≤ z.N ∧ z.N ≤ 60) ∨ (z.North = true ∧ 101 ≤ z.N ∧ z.N ≤ 160) ∨
        (z.North = false ∧ -99 ≤ z.N ∧ z.N ≤ -40) := by
  unfold IsInt64 at h
  unfold Zone.SRID wrapInt
  cases hN : z.North <;> simp <;> omega

theorem lookup_success_iff (code : Int) :
    (LookupSRID code).2 = true ↔
      (32601 ≤ code ∧ code ≤ 32660 ∨ 32701 ≤ code ∧ code ≤ 32760) := by
  rw [LookupSRID_eq]
  split_ifs with h1 h2
  · simp [h1]
  · simp [h2]
  · simp [h1, h2]

theorem F64.not_le_of_lt {a b : F64} (h : a < b) : ¬ b ≤ a := by
  have h' : F64.lt a b = true := h
  show ¬ (F64.le b a = true)
  cases a with
  | nan => simp [F64.lt] at h'
  | inf s =>
    cases b with
    | nan => simp [F64.le]
    | inf t => cases s <;> cases t <;> simp [F64.lt, F64.le] at h' ⊢
    | fin q => cases s <;> simp [F64.lt, F64.le] at h' ⊢
  | fin p =>
    cases b with
    | nan => simp [F64.le]
    | inf t => cases t <;> simp [F64.lt, F64.le] at h' ⊢
    | fin q => simp [F64.lt, F64.le] at h' ⊢; exact h'

theorem wrapInt_abs (a : Int) : |wrapInt a| ≤ 2 ^ 63 := by
  rw [abs_le]; unfold wrapInt; constructor <;> omega

/-- The central meridian of any Zone is a finite float64 of magnitude at most
2^63. -/
theorem centralMeridian_bound (z : Zone) :
    ∃ c, z.CentralMeridian = F64.fin c ∧ |c| ≤ 2 ^ 63 := by
  have hw := wrapInt_abs (wrapInt (wrapInt (wrapInt (z.N - 1) * 6) - 180) + 3)
  have hq : |((wrapInt (wrapInt (wrapInt (wrapInt (z.N - 1) * 6) - 180) + 3) : ℤ) : ℚ)|
      ≤ 2 ^ 63 := by
    have : ((|wrapInt (wrapInt (wrapInt (wrapInt (z.N - 1) * 6) - 180) + 3)| : ℤ) : ℚ)
        ≤ ((2 ^ 63 : ℤ) : ℚ) := by exact_mod_cast hw
    simpa using this
  have hb := abs_fl_le (by norm_num) hq
  refine ⟨_, ?_, hb⟩
  unfold Zone.CentralMeridian F64.ofInt
  rw [F64.round_of_le hb]

/-- The sum `(6 - 2^-50) + 180` rounds up to 186. -/
theorem fl_186_up : fl ((6 - 1 / 2 ^ 50) + 180) = 186 := by
  have e : ((6 - 1 / 2 ^ 50 : ℚ) + 180) = 186 - 1 / 2 ^ 50 := by ring
  rw [e, fl_eval (k := 7) (n := 186 * 2 ^ 45) (by norm_num) (by norm_num [abs_of_pos])
    (by norm_num [abs_of_pos])]
  · norm_num
  · norm_num [roundHalfEven]

theorem zoneNumber_below6 :
    wrapInt (F64.toInt ((F64.fin (6 - 1 / 2 ^ 50) + F64.fin 180) / F64.fin 6) + 1) = 32 := by
  rw [zoneNumber_eq (by norm_num) (by norm_num), fl_186_up]
  have f : fl (186 / 6) = 31 := by
    have := fl_intCast 31 (by norm_num)
    norm_num at this ⊢
    exact this
  rw [f]
  norm_num

/-- Rounding to nearest does not reach an integer from more than a half
below it. -/
theorem roundHalfEven_lt {t : ℚ} {M : ℤ} (h : t < (M : ℚ) - 1 / 2) : roundHalfEven t < M := by
  have hfl : ⌊t⌋ ≤ M - 1 := by
    have : ⌊t⌋ < M := by
      rw [Int.floor_lt]; linarith
    omega
  rcases lt_or_eq_of_le hfl with h1 | h1
  · have := roundHalfEven_le_floor_add_one t
    omega
  · have hfrac : t - ⌊t⌋ < 1 / 2 := by
      rw [h1]; push_cast; linarith
    unfold roundHalfEven
    rw [if_pos hfrac]; omega

/-- The significand of a rounded value: an integer of magnitude at most 2^53. -/
theorem roundHalfEven_div_ulp_abs (a : ℚ) : |roundHalfEven (a / ulp a)| ≤ 2 ^ 53 := by
  have hu := ulp_pos a
  have hlt : |a| < 2 ^ (binade a + 1) := lt_zpow_binade
  have e : (((2 ^ 53 : ℤ) : ℚ)) * ulp a = 2 ^ (binade a + 1) := pow53_mul_zpow _
  have h1 : a / ulp a ≤ ((2 ^ 53 : ℤ) : ℚ) := by
    rw [div_le_iff₀ hu, e]
    exact le_trans (le_abs_self a) (le_of_lt hlt)
  have h2 : (((-(2 ^ 53) : ℤ)) : ℚ) ≤ a / ulp a := by
    rw [le_div_iff₀ hu]
    have : -(2 : ℚ) ^ (binade a + 1) ≤ a := by
      have := neg_abs_le a
      linarith
    have e' : (((-(2 ^ 53) : ℤ)) : ℚ) * ulp a = -(2 ^ (binade a + 1)) := by
      rw [Int.cast_neg, neg_mul, e]
    rw [e']; exact this
  rw [abs_le]
  exact ⟨le_roundHalfEven h2, roundHalfEven_le h1⟩

/-- Rounding is idempotent: a rounded value is on the binary64 grid. -/
theorem fl_fl (a : ℚ) : fl (fl a) = fl a := by
  have hb := roundHalfEven_div_ulp_abs a
  have hge := binade_ge a
  rcases lt_or_eq_of_le hb with h | h
  · have := fl_eq_self (roundHalfEven (a / ulp a)) (binade a - 52) (by omega) h
    unfold fl at this ⊢
    unfold ulp at this ⊢
    exact this
  · -- the significand is ± 2^53: the value is a power of two
    have hval : fl a = (roundHalfEven (a / ulp a) : ℚ) * 2 ^ (binade a - 52) := rfl
    rcases abs_eq (by norm_num : (0 : ℤ) ≤ 2 ^ 53) |>.mp h with hp | hn
    · have e : fl a = ((1 : ℤ) : ℚ) * 2 ^ (binade a + 1) := by
        rw [hval, hp, pow53_mul_zpow]; simp
      rw [e]
      exact fl_eq_self 1 (binade a + 1) (by omega) (by norm_num)
    · have e : fl a = ((-1 : ℤ) : ℚ) * 2 ^ (binade a + 1) := by
        rw [hval, hn, Int.cast_neg, neg_mul, pow53_mul_zpow]; simp
      rw [e]
      exact fl_eq_self (-1) (binade a + 1) (by omega) (by norm_num)

/-- An integer below 2^51 in magnitude is a whole multiple of the unit in the
last place of any value below 2^51. -/
theorem int_div_ulp {q : ℚ} (hq : q ≠ 0) (hlt : |q| < 2 ^ 51) (j : ℤ) :
    ∃ J : ℤ, (j : ℚ) = J * ulp q := by
  have hB : binade q ≤ 50 := binade_le_of_lt hq (by norm_num)
      (by rw [show ((50 : ℤ) + 1) = ((51 : ℕ) : ℤ) by norm_num, zpow_natCast]; exact hlt)
  obtain ⟨d, hd⟩ : ∃ d : ℕ, (d : ℤ) = 52 - binade q :=
    ⟨(52 - binade q).toNat, by omega⟩
  refine ⟨j * 2 ^ d, ?_⟩
  unfold ulp
  push_cast
  rw [mul_assoc, ← zpow_natCast, ← zpow_add₀ (by norm_num), hd]
  have : (52 - binade q + (binade q - 52)) = 0 := by ring
  rw [this]; simp

theorem le_binade_of_le {q : ℚ} {k : ℤ} (h : (2 : ℚ) ^ k ≤ |q|) : k ≤ binade q := by
  have hq : 0 < |q| := lt_of_lt_of_le (by positivity) h
  have a1 : k ≤ Int.log 2 |q| :=
    (Int.zpow_le_iff_le_log (b := 2) (by norm_num) hq).mp (by simpa using h)
  exact le_trans a1 (le_max_left _ _)

/-- Division by 6 of a float64 value does not round up across an integer: for a
value `s` of the binary64 grid below `6 * m`, the float64 quotient `s / 6` is
below `m`. -/
theorem fl_div_six_lt {s : ℚ} {m : ℤ} (hs : fl s = s) (h0 : 0 < s) (hm : m ≤ 2 ^ 48)
    (h : s < 6 * (m : ℚ)) : fl (s / 6) < m := by
  have hm1 : 1 ≤ m := by
    have : (0 : ℚ) < (m : ℚ) := by linarith
    have : (0 : ℤ) < m := by exact_mod_cast this
    omega
  have hmq : (m : ℚ) ≤ 2 ^ 48 := by exact_mod_cast hm
  have hm1q : (1 : ℚ) ≤ m := by exact_mod_cast hm1
  have hs51 : |s| < 2 ^ 51 := by
    rw [abs_of_pos h0]; linarith
  have hy0 : 0 < s / 6 := by positivity
  have hy51 : |s / 6| < 2 ^ 51 := by
    rw [abs_of_pos hy0]; linarith
  have hu := ulp_pos s
  have hv := ulp_pos (s / 6)
  -- the grid point `s` is at least one unit below `6 * m`
  obtain ⟨J, hJ⟩ := int_div_ulp (ne_of_gt h0) hs51 (6 * m)
  have hsn : s = (roundHalfEven (s / ulp s) : ℚ) * ulp s := by
    conv_lhs => rw [← hs]
    rfl
  have hstep : s + ulp s ≤ 6 * (m : ℚ) := by
    have e6 : (6 : ℚ) * m = J * ulp s := by
      rw [← hJ]; push_cast; ring
    have hlt : (roundHalfEven (s / ulp s) : ℚ) * ulp s < J * ulp s := by
      rw [← hsn, ← e6]; exact h
    have hlt' : (roundHalfEven (s / ulp s) : ℚ) < J := lt_of_mul_lt_mul_right hlt (le_of_lt hu)
    have hle : roundHalfEven (s / ulp s) + 1 ≤ J := by
      have : roundHalfEven (s / ulp s) < J := by exact_mod_cast hlt'
      omega
    have hle' : ((roundHalfEven (s / ulp s) + 1 : ℤ) : ℚ) ≤ J := by exact_mod_cast hle
    calc s + ulp s = ((roundHalfEven (s / ulp s) + 1 : ℤ) : ℚ) * ulp s := by
          push_cast; rw [add_mul, one_mul, ← hsn]
      _ ≤ J * ulp s := mul_le_mul_of_nonneg_right hle' (le_of_lt hu)
      _ = 6 * m := e6.symm
  by_contra hcon
  have hge : (m : ℚ) ≤ fl (s / 6) := not_lt.mp hcon
  -- the quotient is within half a unit of `m`
  obtain ⟨M, hM⟩ := int_div_ulp (ne_of_gt hy0) hy51 m
  have hr : (M : ℚ) * ulp (s / 6)
      ≤ (roundHalfEven (s / 6 / ulp (s / 6)) : ℚ) * ulp (s / 6) := by
    rw [← hM]; exact hge
  have hr' : (M : ℚ) ≤ roundHalfEven (s / 6 / ulp (s / 6)) := le_of_mul_le_mul_right hr hv
  have hr'' : M ≤ roundHalfEven (s / 6 / ulp (s / 6)) := by exact_mod_cast hr'
  have hhalf : (M : ℚ) - 1 / 2 ≤ s / 6 / ulp (s / 6) := by
    by_contra c
    exact absurd (roundHalfEven_lt (not_le.mp c)) (not_lt.mpr hr'')
  have hnear : (m : ℚ) - ulp (s / 6) / 2 ≤ s / 6 := by
    rw [le_div_iff₀ hv] at hhalf
    rw [hM]; linarith
  -- hence the unit of `s` is at most three units of the quotient
  have h3 : ulp s ≤ 3 * ulp (s / 6) := by linarith
  -- but `s` lies two binades above its quotient
  have hv1 : ulp (s / 6) ≤ 1 := by
    have hB : binade (s / 6) ≤ 50 :=
      binade_le_of_lt (ne_of_gt hy0) (by norm_num)
        (by rw [show ((50 : ℤ) + 1) = ((51 : ℕ) : ℤ) by norm_num, zpow_natCast]; exact hy51)
    unfold ulp
    exact zpow_le_one_of_nonpos₀ (by norm_num) (by omega)
  have hyhalf : (2 : ℚ) ^ (-1 : ℤ) ≤ |s / 6| := by
    rw [abs_of_pos hy0]
    have : (2 : ℚ) ^ (-1 : ℤ) = 1 / 2 := by norm_num
    rw [this]; linarith
  have hBy : -1 ≤ binade (s / 6) := le_binade_of_le hyhalf
  have hpow : (2 : ℚ) ^ binade (s / 6) ≤ |s / 6| :=
    zpow_binade_le (ne_of_gt hy0) (by omega)
  rw [abs_of_pos hy0] at hpow
  have hpow2 : (2 : ℚ) ^ (binade (s / 6) + 2) ≤ |s| := by
    rw [abs_of_pos h0, zpow_add₀ (by norm_num)]
    have : (2 : ℚ) ^ (2 : ℤ) = 4 := by norm_num
    rw [this]; linarith
  have hBB : binade (s / 6) + 2 ≤ binade s := le_binade_of_le hpow2
  have h4 : 4 * ulp (s / 6) ≤ ulp s := by
    unfold ulp
    have e : (4 : ℚ) * 2 ^ (binade (s / 6) - 52) = 2 ^ (binade (s / 6) + 2 - 52) := by
      have : (binade (s / 6) + 2 - 52) = 2 + (binade (s / 6) - 52) := by ring
      rw [this, zpow_add₀ (by norm_num)]; norm_num
    rw [e]
    exact zpow_le_zpow_right₀ (by norm_num) (by omega)
  linarith

/-- The integer part of the float64 quotient `(longitude + 180) / 6` is the
integer part of the exact quotient of the float64 sum `s` by 6: only the
addition can carry the quotient across an integer. -/
theorem floor_quotient_eq {x : ℚ} (h1 : -180 ≤ x) (h50 : x ≤ 2 ^ 50) :
    ⌊fl (fl (x + 180) / 6)⌋ = ⌊fl (x + 180) / 6⌋ ∧
      0 ≤ ⌊fl (x + 180) / 6⌋ ∧ ⌊fl (x + 180) / 6⌋ < 2 ^ 48 := by
  have a0 : (0 : ℚ) ≤ x + 180 := by linarith
  have b0 : 0 ≤ fl (x + 180) := fl_nonneg a0
  have b1 : fl (x + 180) ≤ 2 ^ 50 + 180 := by
    have e : fl (2 ^ 50 + 180) = 2 ^ 50 + 180 := by
      have := fl_intCast (2 ^ 50 + 180) (by norm_num)
      norm_num at this ⊢
      exact this
    have := fl_mono a0 (show x + 180 ≤ 2 ^ 50 + 180 by linarith)
    rwa [e] at this
  have c0 : (0 : ℚ) ≤ fl (x + 180) / 6 := by positivity
  have hk0 : 0 ≤ ⌊fl (x + 180) / 6⌋ := Int.floor_nonneg.mpr c0
  have hk1 : ((⌊fl (x + 180) / 6⌋ : ℤ) : ℚ) ≤ fl (x + 180) / 6 := Int.floor_le _
  have hk2 : fl (x + 180) / 6 < ((⌊fl (x + 180) / 6⌋ : ℤ) : ℚ) + 1 := Int.lt_floor_add_one _
  have hk3 : ⌊fl (x + 180) / 6⌋ < 2 ^ 48 := by
    have : ((⌊fl (x + 180) / 6⌋ : ℤ) : ℚ) < ((2 ^ 48 : ℤ) : ℚ) := by
      push_cast; linarith
    exact_mod_cast this
  refine ⟨?_, hk0, hk3⟩
  rw [Int.floor_eq_iff]
  constructor
  · have := fl_mono
      (show (0 : ℚ) ≤ ((⌊fl (x + 180) / 6⌋ : ℤ) : ℚ) by exact_mod_cast hk0) hk1
    rwa [fl_intCast _ (by rw [abs_of_nonneg hk0]; omega)] at this
  · rcases eq_or_lt_of_le b0 with hz | hp
    · rw [← hz]
      have : fl ((0 : ℚ) / 6) = 0 := by rw [zero_div, fl_zero]
      rw [this]
      have : (0 : ℚ) ≤ ((⌊(0 : ℚ) / 6⌋ : ℤ) : ℚ) := by simp
      linarith
    · have := fl_div_six_lt (s := fl (x + 180)) (m := ⌊fl (x + 180) / 6⌋ + 1) (fl_fl _) hp
        (by omega) (by push_cast; linarith)
      push_cast at this
      exact this

/-! ## The claims, continued -/

/-- C11: for every SRID code in 32601..32660 and every code in 32701..32760,
`LookupSRID` succeeds and `SRID` of the Zone it returns is the original
code. -/
theorem LookupSRID_SRID (code : Int)
    (h : 32601 ≤ code ∧ code ≤ 32660 ∨ 32701 ≤ code ∧ code ≤ 32760) :
    (LookupSRID code).2 = true ∧ (LookupSRID code).1.SRID = code := by
  refine ⟨(lookup_success_iff code).mpr h, ?_⟩
  rw [LookupSRID_eq]
  rcases h with h | h
  · rw [if_pos h]
    show wrapInt (code - 32600 + 32600) = code
    rw [wrapInt_of_fits (by omega) (by omega)]; omega
  · rw [if_neg (by omega), if_pos h]
    show wrapInt (code - 32700 + 32700) = code
    rw [wrapInt_of_fits (by omega) (by omega)]; omega

theorem LookupSRID_SRID_witness :
    (LookupSRID 32632).2 = true ∧ (LookupSRID 32632).1.SRID = 32632 :=
  LookupSRID_SRID 32632 (by decide)

/-- C12: for every integer code, `LookupSRID(code)` returns
`(Zone{N: code-32600, L: "", North: true}, true)` when code is in
[32601, 32660], `(Zone{N: code-32700, L: "", North: false}, true)` when code
is in [32701, 32760], and the zero Zone with `false` for every other code; it
succeeds exactly on those two ranges and the letter it returns is always
empty. -/
theorem LookupSRID_cases (code : Int) :
    (LookupSRID code =
      if 32601 ≤ code ∧ code ≤ 32660 then
        ({ N := code - 32600, L := [], North := true }, true)
      else if 32701 ≤ code ∧ code ≤ 32760 then
        ({ N := code - 32700, L := [], North := false }, true)
      else (Zone.zero, false)) ∧
    ((LookupSRID code).2 = true ↔
      (32601 ≤ code ∧ code ≤ 32660 ∨ 32701 ≤ code ∧ code ≤ 32760)) ∧
    (LookupSRID code).1.L = [] := by
  refine ⟨LookupSRID_eq code, lookup_success_iff code, ?_⟩
  rw [LookupSRID_eq]
  split_ifs <;> rfl

/-- C13 (as amended): for every Zone whose number is a 64-bit `int` outside
1..60, the code returned by `SRID` lies outside both valid ranges
[32601, 32660] and [32701, 32760], and `LookupSRID` of it fails, except for a
northern Zone with number 101..160 (its code is 32701..32760) and a southern
Zone with number -99..-40 (its code is 32601..32660). -/
theorem SRID_outside_ranges (z : Zone) (h : IsInt64 z.N) (hN : ¬ (1 ≤ z.N ∧ z.N ≤ 60)) :
    ((LookupSRID z.SRID).2 = false ↔
      ¬ (z.North = true ∧ 101 ≤ z.N ∧ z.N ≤ 160) ∧
        ¬ (z.North = false ∧ -99 ≤ z.N ∧ z.N ≤ -40)) ∧
    ((LookupSRID z.SRID).2 = false ↔
      ¬ (32601 ≤ z.SRID ∧ z.SRID ≤ 32660 ∨ 32701 ≤ z.SRID ∧ z.SRID ≤ 32760)) := by
  have key := lookup_SRID_iff z h
  have suc := lookup_success_iff z.SRID
  have hb : (LookupSRID z.SRID).2 = false ↔ ¬ (LookupSRID z.SRID).2 = true := by
    cases (LookupSRID z.SRID).2 <;> simp
  constructor
  · rw [hb, suc, key]
    constructor
    · intro c
      exact ⟨fun a => c (Or.inr (Or.inl a)), fun a => c (Or.inr (Or.inr a))⟩
    · rintro ⟨c1, c2⟩ (a | a | a)
      · exact hN a
      · exact c1 a
      · exact c2 a
  · rw [hb, suc]

theorem SRID_outside_ranges_witness :
    ((LookupSRID (Zone.mk 0 [] true).SRID).2 = false ↔
      ¬ ((Zone.mk 0 [] true).North = true ∧ 101 ≤ (Zone.mk 0 [] true).N ∧
          (Zone.mk 0 [] true).N ≤ 160) ∧
        ¬ ((Zone.mk 0 [] true).North = false ∧ -99 ≤ (Zone.mk 0 [] true).N ∧
          (Zone.mk 0 [] true).N ≤ -40)) ∧
    ((LookupSRID (Zone.mk 0 [] true).SRID).2 = false ↔
      ¬ (32601 ≤ (Zone.mk 0 [] true).SRID ∧ (Zone.mk 0 [] true).SRID ≤ 32660 ∨
        32701 ≤ (Zone.mk 0 [] true).SRID ∧ (Zone.mk 0 [] true).SRID ≤ 32760)) :=
  SRID_outside_ranges (Zone.mk 0 [] true) (by decide) (by decide)

/-- C13 fails as stated: the northern Zone with number 101, outside 1..60,
has the code 32701, a valid code of the southern range, and `LookupSRID`
accepts it as zone 1 south. -/
theorem SRID_outside_ranges_counterexample :
    ¬ (1 ≤ (Zone.mk 101 [] true).N ∧ (Zone.mk 101 [] true).N ≤ 60) ∧
    (Zone.mk 101 [] true).SRID = 32701 ∧
    LookupSRID (Zone.mk 101 [] true).SRID = ({ N := 1, L := [], North := false }, true) := by
  decide

/-- C14: for every latitude strictly below -80 or strictly above 84 and every
longitude, `LatLonZone` returns a Zone whose letter is empty. -/
theorem LatLonZone_outside_bands (latitude longitude : F64)
    (h : latitude < F64.fin (-80) ∨ F64.fin 84 < latitude) :
    ∃ z, LatLonZone latitude longitude = some z ∧ z.L = [] := by
  obtain ⟨z, hz, -, hl⟩ := LatLonZone_shape latitude longitude
  refine ⟨z, hz, ?_⟩
  rcases hl with hl | hl
  · exact hl
  · unfold LetterOf at hl
    have hg : ¬ (F64.fin (-80) ≤ latitude ∧ latitude ≤ F64.fin 84) := by
      rintro ⟨g1, g2⟩
      rcases h with h | h
      · exact F64.not_le_of_lt h g1
      · exact F64.not_le_of_lt h g2
    rw [if_neg hg] at hl
    exact hl

theorem LatLonZone_outside_bands_witness :
    ∃ z, LatLonZone (F64.fin 90) (F64.fin 10) = some z ∧ z.L = [] :=
  LatLonZone_outside_bands (F64.fin 90) (F64.fin 10) (Or.inr (by simp; norm_num))

/-- C15: for every Zone `z`, `z.String()` is the decimal text of `z.N`,
followed by `z.L` (or the single character "?" when `z.L` is empty), followed
by " (north)" when `z.North` is true and " (south)" otherwise; the hemisphere
word depends only on North; `Zone{32, "", true}` renders as "32? (north)". -/
theorem Zone_String_eq (z : Zone) :
    z.String = decimalText z.N ++ (if z.L = [] then ascii "?" else z.L) ++
      (if z.North then ascii " (north)" else ascii " (south)") ∧
    (∀ l : GoString, ∃ p, (Zone.mk z.N l z.North).String =
      p ++ (if z.North then ascii " (north)" else ascii " (south)")) ∧
    (Zone.mk 32 [] true).String = ascii "32? (north)" := by
  have main : ∀ y : Zone, y.String = decimalText y.N ++ (if y.L = [] then ascii "?" else y.L) ++
      (if y.North then ascii " (north)" else ascii " (south)") := by
    intro y
    unfold Zone.String sprintfDS
    by_cases hL : y.L = [] <;> cases hN : y.North <;> simp [hL, hN]
  refine ⟨main z, fun l => ⟨_, main _⟩, ?_⟩
  rw [main]
  simp [decimalText, natText]
  decide

/-- C16: for every Zone `z`, `z.CentralMeridian()` is the `int` expression
`(z.N - 1) * 6 - 180 + 3`, that is `6 * N - 183`, converted to float64, with no
clamping for N outside 1..60: the exact value `6 * N - 183` for every N within
2^50 of zero; it depends on N alone; N = 1 gives -177 and N = 31 gives 3. -/
theorem CentralMeridian_eq (z : Zone) :
    z.CentralMeridian = F64.ofInt (wrapInt (6 * z.N - 183)) ∧
    (-2 ^ 50 ≤ z.N → z.N ≤ 2 ^ 50 →
      z.CentralMeridian = F64.fin (((z.N : ℚ) - 1) * 6 - 180 + 3) ∧
      z.CentralMeridian = F64.fin (6 * (z.N : ℚ) - 183)) ∧
    (∀ (l : GoString) (north : Bool),
      (Zone.mk z.N l north).CentralMeridian = z.CentralMeridian) ∧
    (Zone.mk 1 [] true).CentralMeridian = F64.fin (-177) ∧
    (Zone.mk 31 [] true).CentralMeridian = F64.fin 3 ∧
    (Zone.mk 0 [] true).CentralMeridian = F64.fin (-183) ∧
    (Zone.mk 61 [] true).CentralMeridian = F64.fin 183 := by
  refine ⟨?_, ?_, fun _ _ => rfl, ?_, ?_, ?_, ?_⟩
  · unfold Zone.CentralMeridian
    rw [centralMeridian_int]
  · intro h1 h2
    have := centralMeridian_exact z h1 h2
    refine ⟨?_, this⟩
    rw [this]; congr 1; ring
  · rw [centralMeridian_exact _ (by norm_num) (by norm_num)]; norm_num
  · rw [centralMeridian_exact _ (by norm_num) (by norm_num)]; norm_num
  · rw [centralMeridian_exact _ (by norm_num) (by norm_num)]; norm_num
  · rw [centralMeridian_exact _ (by norm_num) (by norm_num)]; norm_num

/-- C17: for every Zone `z`, `z.SRID()` is `z.N + 32600` when `z.North` is true
and `z.N + 32700` otherwise, the sum being the sum of 64-bit `int`s (the exact
sum whenever it fits), independent of the letter; `Zone{N: 32, North: true}`
gives 32632. -/
theorem Zone_SRID_eq (z : Zone) :
    z.SRID = (if z.North then wrapInt (z.N + 32600) else wrapInt (z.N + 32700)) ∧
    (IsInt64 z.N → z.N + 32700 < 2 ^ 63 →
      z.SRID = if z.North then z.N + 32600 else z.N + 32700) ∧
    (∀ l : GoString, (Zone.mk z.N l z.North).SRID = z.SRID) ∧
    (Zone.mk 32 [] true).SRID = 32632 := by
  exact ⟨rfl, SRID_eq z, fun _ => rfl, by decide⟩

/-- C18 (as amended): for every latitude and every longitude from -180 to 2^50
at which neither the Norway nor the Svalbard exception returns, the float64
sum `s = longitude + 180` that the code computes lies in the strip of the zone
`LatLonZone` returns, `z.CentralMeridian() - 3 <= s - 180 <
z.CentralMeridian() + 3`; so the longitude itself lies in the strip whenever
that sum is exact, and in every case `z.CentralMeridian() - 4 < longitude <
z.CentralMeridian() + 3`. -/
theorem LatLonZone_strip (latitude : F64) (x : ℚ)
    (hno : ¬ (F64.fin 56 ≤ latitude ∧ latitude ≤ F64.fin 64 ∧
      F64.fin 3 ≤ F64.fin x ∧ F64.fin x ≤ F64.fin 12))
    (hsv : ¬ (F64.fin 72 ≤ latitude ∧ latitude ≤ F64.fin 84 ∧
      F64.fin 0 ≤ F64.fin x ∧ F64.fin x ≤ F64.fin 42))
    (h1 : -180 ≤ x) (h2 : x ≤ 2 ^ 50) :
    ∃ z c, LatLonZone latitude (F64.fin x) = some z ∧
      z.CentralMeridian = F64.fin c ∧ c = 6 * (z.N : ℚ) - 183 ∧
      F64.fin x + F64.fin 180 = F64.fin (fl (x + 180)) ∧
      (c - 3 ≤ fl (x + 180) - 180 ∧ fl (x + 180) - 180 < c + 3) ∧
      (fl (x + 180) = x + 180 → c - 3 ≤ x ∧ x < c + 3) ∧
      (c - 4 < x ∧ x < c + 3) := by
  have hx62 : x ≤ 2 ^ 62 := le_trans h2 (by norm_num)
  obtain ⟨l, hl, -⟩ := general_eq latitude (F64.fin x) (decide (latitude ≥ F64.fin 0))
  obtain ⟨hq, hk0, hk3⟩ := floor_quotient_eq h1 h2
  rw [zoneNumber_eq h1 hx62, hq] at hl
  have a0 : (0 : ℚ) ≤ x + 180 := by linarith
  have b0 : 0 ≤ fl (x + 180) := fl_nonneg a0
  have hk1 : ((⌊fl (x + 180) / 6⌋ : ℤ) : ℚ) ≤ fl (x + 180) / 6 := Int.floor_le _
  have hk2 : fl (x + 180) / 6 < ((⌊fl (x + 180) / 6⌋ : ℤ) : ℚ) + 1 := Int.lt_floor_add_one _
  have hc := centralMeridian_exact
    (Zone.mk (⌊fl (x + 180) / 6⌋ + 1) l (decide (latitude ≥ F64.fin 0)))
    (show -2 ^ 50 ≤ ⌊fl (x + 180) / 6⌋ + 1 by omega)
    (show ⌊fl (x + 180) / 6⌋ + 1 ≤ 2 ^ 50 by omega)
  have hsum : F64.fin x + F64.fin 180 = F64.fin (fl (x + 180)) := by
    rw [F64.add_fin, F64.round_of_le]
    exact abs_fl_le (by norm_num) (by rw [abs_of_nonneg a0]; linarith)
  -- the exact sum is below the east edge and above the integer before the west edge
  have hup : x + 180 < 6 * ((⌊fl (x + 180) / 6⌋ : ℤ) : ℚ) + 6 := by
    by_contra c
    have c' : ((6 * ⌊fl (x + 180) / 6⌋ + 6 : ℤ) : ℚ) ≤ x + 180 := by
      push_cast; exact not_lt.mp c
    have := fl_mono (show (0 : ℚ) ≤ ((6 * ⌊fl (x + 180) / 6⌋ + 6 : ℤ) : ℚ) by
      exact_mod_cast (show (0 : ℤ) ≤ 6 * ⌊fl (x + 180) / 6⌋ + 6 by omega)) c'
    rw [fl_intCast _ (by rw [abs_of_nonneg (by omega)]; omega)] at this
    push_cast at this
    linarith
  have hlow : 6 * ((⌊fl (x + 180) / 6⌋ : ℤ) : ℚ) - 1 < x + 180 := by
    by_contra c
    have c' : x + 180 ≤ ((6 * ⌊fl (x + 180) / 6⌋ - 1 : ℤ) : ℚ) := by
      push_cast; exact not_lt.mp c
    have hpos : (0 : ℤ) ≤ 6 * ⌊fl (x + 180) / 6⌋ - 1 := by
      have : (0 : ℚ) ≤ ((6 * ⌊fl (x + 180) / 6⌋ - 1 : ℤ) : ℚ) := le_trans a0 c'
      exact_mod_cast this
    have := fl_mono a0 c'
    rw [fl_intCast _ (by rw [abs_of_nonneg hpos]; omega)] at this
    push_cast at this
    linarith
  refine ⟨_, _, ?_, hc, rfl, hsum, ⟨?_, ?_⟩, ?_, ⟨?_, ?_⟩⟩
  · rw [LatLonZone_eq_general _ _ hno hsv]; exact hl
  · show 6 * (((⌊fl (x + 180) / 6⌋ + 1 : ℤ) : ℚ)) - 183 - 3 ≤ fl (x + 180) - 180
    push_cast; linarith
  · show fl (x + 180) - 180 < 6 * (((⌊fl (x + 180) / 6⌋ + 1 : ℤ) : ℚ)) - 183 + 3
    push_cast; linarith
  · intro e
    constructor
    · show 6 * (((⌊fl (x + 180) / 6⌋ + 1 : ℤ) : ℚ)) - 183 - 3 ≤ x
      push_cast; linarith
    · show x < 6 * (((⌊fl (x + 180) / 6⌋ + 1 : ℤ) : ℚ)) - 183 + 3
      push_cast; linarith
  · show 6 * (((⌊fl (x + 180) / 6⌋ + 1 : ℤ) : ℚ)) - 183 - 4 < x
    push_cast; linarith
  · show x < 6 * (((⌊fl (x + 180) / 6⌋ + 1 : ℤ) : ℚ)) - 183 + 3
    push_cast; linarith

theorem LatLonZone_strip_witness :
    ∃ z c, LatLonZone (F64.fin 45) (F64.fin 10) = some z ∧
      z.CentralMeridian = F64.fin c ∧ c = 6 * (z.N : ℚ) - 183 ∧
      F64.fin 10 + F64.fin 180 = F64.fin (fl (10 + 180)) ∧
      (c - 3 ≤ fl (10 + 180) - 180 ∧ fl (10 + 180) - 180 < c + 3) ∧
      (fl (10 + 180) = 10 + 180 → c - 3 ≤ 10 ∧ (10 : ℚ) < c + 3) ∧
      (c - 4 < 10 ∧ (10 : ℚ) < c + 3) :=
  LatLonZone_strip (F64.fin 45) 10 (by simp; norm_num) (by simp; norm_num)
    (by norm_num) (by norm_num)

/-- C18 fails as stated, at two inputs where neither exception returns.  At
the float64 longitude 6 - 2^-50, in zone 31, the sum `longitude + 180` rounds
up to 186 and `LatLonZone` returns zone 32, whose central meridian is 9 and
whose strip [6, 12) does not hold the longitude.  The longitude 2^70 is in
the strip of no Zone at all: a central meridian is at most 2^63. -/
theorem LatLonZone_strip_counterexample :
    (F64.Representable (F64.fin (6 - 1 / 2 ^ 50)) ∧
      LatLonZone (F64.fin 0) (F64.fin (6 - 1 / 2 ^ 50))
        = some { N := 32, L := ascii "N", North := true } ∧
      (Zone.mk 32 (ascii "N") true).CentralMeridian = F64.fin 9 ∧
      ¬ ((9 : ℚ) - 3 ≤ 6 - 1 / 2 ^ 50)) ∧
    (∀ z : Zone, ∃ c, z.CentralMeridian = F64.fin c ∧ ¬ ((2 : ℚ) ^ 70 < c + 3)) := by
  refine ⟨⟨?_, ?_, ?_, by norm_num⟩, ?_⟩
  · have := representable_of_dyadic (6 * 2 ^ 50 - 1) (-50) (by norm_num) (by norm_num)
      (by norm_num)
    have e : (((6 * 2 ^ 50 - 1 : ℤ) : ℚ) * 2 ^ (-50 : ℤ)) = 6 - 1 / 2 ^ 50 := by
      norm_num
    rwa [e] at this
  · have := LatLonZone_eval 0 (F64.fin (6 - 1 / 2 ^ 50)) 80 10 78 32 (by simp) (by simp)
      (by norm_num) (by norm_num) fl_80 (by norm_num) (by decide) zoneNumber_below6
    simpa using this
  · rw [centralMeridian_exact _ (by norm_num) (by norm_num)]; norm_num
  · intro z
    obtain ⟨c, hc, hb⟩ := centralMeridian_bound z
    refine ⟨c, hc, ?_⟩
    have := (abs_le.mp hb).2
    have h2 : (2 : ℚ) ^ 63 + 3 ≤ 2 ^ 70 := by norm_num
    linarith

/-- C19: for every Zone `z` with number in 1..60, any letter and either
hemisphere, `LookupSRID(z.SRID())` succeeds and returns
`Zone{N: z.N, L: "", North: z.North}`. -/
theorem LookupSRID_of_SRID (z : Zone) (h1 : 1 ≤ z.N) (h2 : z.N ≤ 60) :
    LookupSRID z.SRID = ({ N := z.N, L := [], North := z.North }, true) := by
  rw [SRID_eq z ⟨by omega, by omega⟩ (by omega), LookupSRID_eq]
  cases hN : z.North
  · simp only [Bool.false_eq_true, if_false]
    rw [if_neg (by omega), if_pos (by omega)]
    congr 2; omega
  · simp only [if_true]
    rw [if_pos (by omega)]
    congr 2; omega

theorem LookupSRID_of_SRID_witness :
    LookupSRID (Zone.mk 32 (ascii "U") true).SRID
      = ({ N := (Zone.mk 32 (ascii "U") true).N, L := [],
           North := (Zone.mk 32 (ascii "U") true).North }, true) :=
  LookupSRID_of_SRID (Zone.mk 32 (ascii "U") true) (by decide) (by decide)

/-- C20: for every latitude in the closed range [-80, 84], the table index
`int(latitude + 80) >> 3` lies in 0..20, so the lookup into the 21-character
table `letters` is in bounds; and `LatLonZone` never panics, on any input. -/
theorem LatLonZone_index_in_bounds (latitude : F64)
    (h1 : F64.fin (-80) ≤ latitude) (h2 : latitude ≤ F64.fin 84) :
    (0 ≤ F64.toInt (latitude + F64.fin 80) >>> (3 : ℕ) ∧
      F64.toInt (latitude + F64.fin 80) >>> (3 : ℕ) ≤ 20) ∧
    letters.length = 21 ∧
    (∃ b, byteAt letters (F64.toInt (latitude + F64.fin 80) >>> (3 : ℕ)) = some b) ∧
    (∀ lat lon : F64, ∃ z, LatLonZone lat lon = some z) := by
  obtain ⟨x, rfl, hx1, hx2⟩ := F64.eq_fin_of_between h1 h2
  obtain ⟨e1, e2, e3⟩ := toInt_lat_add_80 hx1 hx2
  have hdiv : ⌊fl (x + 80)⌋ >>> (3 : ℕ) = ⌊fl (x + 80)⌋ / 8 := by
    rw [Int.shiftRight_eq_div_pow]; rfl
  rw [e1, hdiv]
  obtain ⟨b, -, hb, -⟩ := byteAt_letters (i := ⌊fl (x + 80)⌋ / 8) (by omega) (by omega)
  refine ⟨⟨by omega, by omega⟩, by decide, ⟨b, hb⟩, ?_⟩
  intro lat lon
  obtain ⟨z, hz, -⟩ := LatLonZone_shape lat lon
  exact ⟨z, hz⟩

theorem LatLonZone_index_in_bounds_witness :
    (0 ≤ F64.toInt (F64.fin 84 + F64.fin 80) >>> (3 : ℕ) ∧
      F64.toInt (F64.fin 84 + F64.fin 80) >>> (3 : ℕ) ≤ 20) ∧
    letters.length = 21 ∧
    (∃ b, byteAt letters (F64.toInt (F64.fin 84 + F64.fin 80) >>> (3 : ℕ)) = some b) ∧
    (∀ lat lon : F64, ∃ z, LatLonZone lat lon = some z) :=
  LatLonZone_index_in_bounds (F64.fin 84) (by simp; norm_num) (by simp)

end UTM
